import Mathlib

/-!
# Library lending simulation

A shallow embedding of `C++ Task2.cpp`: the reader types, the `Book` and
`Reader` records, the four global vectors, loan issuance
(`giveBookToReader`), the return of a book (`returnBookToLibrary`) and the
daily step (`processDay`), followed by theorems about them.

Modelling conventions.

* `int` values (days, chances) are mathematical integers. Signed overflow is
  undefined in C++ and the simulated days stay far below the `int` bound.
* Console output is not part of the state.
* The global generator `rng` is a stream of raw words. A finite list stands
  for the stream that continues with zero words. Every call of a
  `uniform_int_distribution` over `[a, b]` consumes one word `w` and delivers
  `a + w % (b - a + 1)`, so every delivered value lies in the range of its
  distribution and every value of the range is delivered by some word.
* The global vectors and the generator are collected in `Library`, which is
  passed explicitly.
-/

namespace LibrarySim

/-! ## Reader types -/

/-- The three classes implementing `IReaderType`. -/
inductive ReaderType where
  | OrdinaryReader
  | GreedyReader
  | ForgetfulReader
  deriving DecidableEq, Repr

/-- Method `loseChance` of the reader type. -/
def ReaderType.loseChance : ReaderType → Int
  | .OrdinaryReader => 5
  | .GreedyReader => 10
  | .ForgetfulReader => 5

/-- Method `lateChance` of the reader type. -/
def ReaderType.lateChance : ReaderType → Int
  | .OrdinaryReader => 0
  | .GreedyReader => 5
  | .ForgetfulReader => 30

/-- Method `maxLateDays` of the reader type. -/
def ReaderType.maxLateDays : ReaderType → Int
  | .OrdinaryReader => 0
  | .GreedyReader => 0
  | .ForgetfulReader => 3

/-- Method `getName` of the reader type. -/
def ReaderType.getName : ReaderType → String
  | .OrdinaryReader => "Обычный"
  | .GreedyReader => "Жадный"
  | .ForgetfulReader => "Забывчивый"

/-! ## Records -/

/-- The record `Book`, with the defaults of the source. -/
structure Book where
  title : String
  returnDay : Int := 0
  isLost : Bool := false
  isReturnedLate : Bool := false
  isTaken : Bool := false
  deriving DecidableEq, Repr

instance : Inhabited Book := ⟨{ title := "" }⟩

/-- The record `Reader`: its type object, its name and the books it holds. -/
structure Reader where
  type : ReaderType
  name : String
  takenBooks : List Book := []
  deriving DecidableEq, Repr

/-- Forwarder `Reader::loseChance`. -/
def Reader.loseChance (reader : Reader) : Int := reader.type.loseChance

/-- Forwarder `Reader::lateChance`. -/
def Reader.lateChance (reader : Reader) : Int := reader.type.lateChance

/-- Forwarder `Reader::maxLateDays`. -/
def Reader.maxLateDays (reader : Reader) : Int := reader.type.maxLateDays

/-! ## The generator and the distributions -/

/-- The generator: the raw words it will still deliver. -/
abbrev Rng := List Nat

/-- One raw word of the generator and the generator afterwards. -/
def nextWord : Rng → Nat × Rng
  | [] => (0, [])
  | w :: ws => (w, ws)

/-- A `uniform_int_distribution<int>` over `[a, b]` applied to the generator. -/
def uniformInt (a b : Int) (rng : Rng) : Int × Rng :=
  (a + (((nextWord rng).1 % (b - a + 1).toNat : Nat) : Int), (nextWord rng).2)

/-- A `uniform_int_distribution<size_t>` over `[a, b]` applied to the generator. -/
def uniformSize (a b : Nat) (rng : Rng) : Nat × Rng :=
  (a + (nextWord rng).1 % (b - a + 1), (nextWord rng).2)

/-- The distribution `dist100(1, 100)`. -/
def dist100 (rng : Rng) : Int × Rng := uniformInt 1 100 rng

/-- The distribution `returnDays(6, 10)`. -/
def returnDays (rng : Rng) : Int × Rng := uniformInt 6 10 rng

/-- The distribution `lateDays(1, 3)`. -/
def lateDays (rng : Rng) : Int × Rng := uniformInt 1 3 rng

/-! ## The global state -/

/-- The global vectors of the program together with the generator. -/
structure Library where
  libraryBooks : List Book := []
  activeReaders : List Reader := []
  lostBooks : List Book := []
  lateReturnedBooks : List Book := []
  rng : Rng := []
  deriving DecidableEq, Repr

/-- Function `initLibrary`: the catalog of five books. The other vectors are
empty at program start; the generator is the one given. -/
def initLibrary (rng : Rng) : Library :=
  { libraryBooks :=
      [ { title := "Преступление и наказание" },
        { title := "Чистый код" },
        { title := "Война и мир" },
        { title := "1984" },
        { title := "Мастер и Маргарита" } ],
    rng := rng }

/-! ## Loan issuance -/

/-- The result of `giveBookToReader`: the returned flag and the objects it
received by reference, as they are afterwards. -/
structure GiveResult where
  ok : Bool
  reader : Reader
  book : Book
  rng : Rng
  deriving DecidableEq, Repr

/-- Function `giveBookToReader`. -/
def giveBookToReader (reader : Reader) (book : Book) (currentDay : Int) (rng : Rng) :
    GiveResult :=
  if book.isTaken then
    { ok := false, reader := reader, book := book, rng := rng }
  else
    let chance := (dist100 rng).1
    let rng1 := (dist100 rng).2
    let book1 : Book := { book with isLost := decide (chance ≤ reader.loseChance) }
    let book2 : Book :=
      if !book1.isLost then
        { book1 with
          isReturnedLate := decide (chance ≤ reader.loseChance + reader.lateChance) }
      else book1
    let book3 : Book := { book2 with returnDay := currentDay + (returnDays rng1).1 }
    let rng2 := (returnDays rng1).2
    let late := book3.isReturnedLate && decide (reader.maxLateDays > 0)
    let book4 : Book :=
      if late then { book3 with returnDay := book3.returnDay + (lateDays rng2).1 }
      else book3
    let rng3 := if late then (lateDays rng2).2 else rng2
    let book5 : Book := { book4 with isTaken := true }
    { ok := true,
      reader := { reader with takenBooks := reader.takenBooks ++ [book5] },
      book := book5,
      rng := rng3 }

/-- Function `createRandomReader`: a reader of a drawn type, named after the
type and the day, holding nothing. -/
def createRandomReader (day : Int) (rng : Rng) : Reader × Rng :=
  let type := (uniformInt 0 2 rng).1
  let readerType : ReaderType :=
    if type = 0 then .OrdinaryReader
    else if type = 1 then .GreedyReader
    else .ForgetfulReader
  ({ type := readerType, name := readerType.getName ++ "_" ++ toString day },
    (uniformInt 0 2 rng).2)

/-! ## Return of a book -/

/-- Function `returnBookToLibrary`. -/
def returnBookToLibrary (book : Book) : Book :=
  let book1 : Book := { book with isTaken := false }
  if !book1.isLost then { book1 with isReturnedLate := false } else book1

/-- The loop over `libraryBooks` inside `processDay` that returns the first
book with the given title and stops. -/
def returnByTitle (title : String) : List Book → List Book
  | [] => []
  | libBook :: rest =>
    if libBook.title = title then returnBookToLibrary libBook :: rest
    else libBook :: returnByTitle title rest

/-! ## The daily step -/

/-- The indices, from `i` on, of the books that are not taken. -/
def availableFrom (i : Nat) : List Book → List Nat
  | [] => []
  | b :: bs =>
    if !b.isTaken then i :: availableFrom (i + 1) bs else availableFrom (i + 1) bs

/-- The vector `availableIndices` built at the start of `processDay`. -/
def availableIndices (books : List Book) : List Nat := availableFrom 0 books

/-- First part of `processDay`: the possible arrival of a new reader. -/
def arrival (day : Int) (s : Library) : Library :=
  let rng1 := (dist100 s.rng).2
  if (dist100 s.rng).1 ≤ 50 then
    let avail := availableIndices s.libraryBooks
    if avail.isEmpty then { s with rng := rng1 }
    else
      let bookIndex := avail.getD (uniformSize 0 (avail.length - 1) rng1).1 0
      let rng2 := (uniformSize 0 (avail.length - 1) rng1).2
      let newReader := (createRandomReader day rng2).1
      let rng3 := (createRandomReader day rng2).2
      let res := giveBookToReader newReader (s.libraryBooks.getD bookIndex default) day rng3
      let books := s.libraryBooks.set bookIndex res.book
      if res.ok then
        { s with
          libraryBooks := books,
          activeReaders := s.activeReaders ++ [res.reader],
          rng := res.rng }
      else { s with libraryBooks := books, rng := res.rng }
  else { s with rng := rng1 }

/-- The inner loop of the return processing: walks the books of one reader,
erasing every overdue one, and updates the global vectors. Returns the books
the reader keeps. -/
def processBooks (day : Int) : List Book → Library → List Book × Library
  | [], s => ([], s)
  | b :: bs, s =>
    if day > b.returnDay then
      if b.isLost then
        let s1 : Library :=
          if day = b.returnDay + 1 then { s with lostBooks := s.lostBooks ++ [b] } else s
        processBooks day bs s1
      else
        let s1 : Library :=
          if b.isReturnedLate then
            { s with lateReturnedBooks := s.lateReturnedBooks ++ [b] }
          else s
        let s2 : Library :=
          { s1 with libraryBooks := returnByTitle b.title s1.libraryBooks }
        processBooks day bs s2
    else
      ((b :: (processBooks day bs s).1), (processBooks day bs s).2)

/-- The outer loop of the return processing: walks the readers, erasing every
reader left without books. Returns the readers that stay. -/
def processReaders (day : Int) : List Reader → Library → List Reader × Library
  | [], s => ([], s)
  | r :: rs, s =>
    let kept := (processBooks day r.takenBooks s).1
    let s1 := (processBooks day r.takenBooks s).2
    let rest := processReaders day rs s1
    if kept.isEmpty then (rest.1, rest.2)
    else ({ r with takenBooks := kept } :: rest.1, rest.2)

/-- Second part of `processDay`: the return processing over `activeReaders`. -/
def resolution (day : Int) (s : Library) : Library :=
  { (processReaders day s.activeReaders s).2 with
    activeReaders := (processReaders day s.activeReaders s).1 }

/-- Function `processDay`, without its console output. -/
def processDay (day : Int) (s : Library) : Library :=
  resolution day (arrival day s)

/-- The loop of `main`: the state after the days `1, ..., n`. -/
def simulate (rng : Rng) : Nat → Library
  | 0 => initLibrary rng
  | n + 1 => processDay ((n : Int) + 1) (simulate rng n)

/-- All loans held by the given readers, in reader order, then loan order. -/
def loansOf : List Reader → List Book
  | [] => []
  | r :: rs => r.takenBooks ++ loansOf rs

/-- All loans held by the active readers of a state. -/
def Library.loans (s : Library) : List Book := loansOf s.activeReaders

/-! ## Auxiliary definitions for the statements -/

/-- The catalog after returning, one after the other, the books with the given titles. -/
def returnAll : List String → List Book → List Book
  | [], books => books
  | t :: ts, books => returnAll ts (returnByTitle t books)

/-- A loan is overdue on the given day: the test `day > returnDay` of the return
processing. -/
def overdue (day : Int) (b : Book) : Bool := decide (day > b.returnDay)

/-- The late flag of a book after issuance: the flag the book had when the
draw makes it lost, the outcome of the draw otherwise. -/
def issuedLate (reader : Reader) (book : Book) (rng : Rng) : Bool :=
  if (dist100 rng).1 ≤ reader.loseChance then book.isReturnedLate
  else decide ((dist100 rng).1 ≤ reader.loseChance + reader.lateChance)

/-- The book after a successful issuance, in closed form. -/
def issuedBook (reader : Reader) (book : Book) (currentDay : Int) (rng : Rng) : Book :=
  { title := book.title,
    returnDay := currentDay + (returnDays (dist100 rng).2).1 +
      (if issuedLate reader book rng = true ∧ reader.maxLateDays > 0
        then (lateDays (returnDays (dist100 rng).2).2).1 else 0),
    isLost := decide ((dist100 rng).1 ≤ reader.loseChance),
    isReturnedLate := issuedLate reader book rng,
    isTaken := true }

/-- A generator whose next three words make `dist100`, `returnDays` and
`lateDays`, called in this order, deliver `chance`, `base` and `extra`. -/
def wordsFor (chance base extra : Int) (rest : Rng) : Rng :=
  (chance - 1).toNat :: (base - 6).toNat :: (extra - 1).toNat :: rest

/-- The first catalog book with the given title is back in circulation. -/
def Returned (t : String) (books : List Book) : Prop :=
  ∃ c, books.find? (fun c => decide (c.title = t)) = some c ∧ c.isTaken = false ∧
    (c.isLost = false → c.isReturnedLate = false)

/-- Consistency of the catalog, the loans and the lost ledger: titles are
distinct in the catalog and among the loans, every loan is the catalog copy of
its book and is taken, a taken catalog book is on loan or lost, a lost catalog
book is taken, and every ledger entry names a lost catalog book that nobody
holds. -/
structure Consistent (s : Library) : Prop where
  titles_nodup : (s.libraryBooks.map Book.title).Nodup
  loans_nodup : (s.loans.map Book.title).Nodup
  loan_mem : ∀ b ∈ s.loans, b ∈ s.libraryBooks ∧ b.isTaken = true
  taken : ∀ c ∈ s.libraryBooks, c.isTaken = true → c ∈ s.loans ∨ c.isLost = true
  lost_taken : ∀ c ∈ s.libraryBooks, c.isLost = true → c.isTaken = true
  ledger : ∀ l ∈ s.lostBooks,
    (∃ c ∈ s.libraryBooks, c.title = l.title ∧ c.isLost = true) ∧
      l.title ∉ s.loans.map Book.title

/-- What the return processing leaves of one reader: the loans that are not
overdue, in their order. -/
def keepLoans (day : Int) (r : Reader) : Reader :=
  { r with takenBooks := r.takenBooks.filter (fun b => decide (b.returnDay ≥ day)) }

/-- What the return processing leaves of the readers: every reader with the loans
that are not overdue, without the readers left with no loan. -/
def survivors (day : Int) (rs : List Reader) : List Reader :=
  (rs.map (keepLoans day)).filter (fun r => !r.takenBooks.isEmpty)

/-- A book is not both lost and late, and carries no late flag when it is not
taken. -/
def Book.Clean (b : Book) : Prop :=
  ¬ (b.isLost = true ∧ b.isReturnedLate = true) ∧
    (b.isTaken = false → b.isReturnedLate = false)

/-- No catalog book, loan or ledger entry is both lost and late, and an untaken
catalog book carries no late flag. -/
structure Exclusive (s : Library) : Prop where
  catalog : ∀ c ∈ s.libraryBooks, c.Clean
  loans : ∀ b ∈ s.loans, ¬ (b.isLost = true ∧ b.isReturnedLate = true)
  lost : ∀ b ∈ s.lostBooks, ¬ (b.isLost = true ∧ b.isReturnedLate = true)
  late : ∀ b ∈ s.lateReturnedBooks, ¬ (b.isLost = true ∧ b.isReturnedLate = true)

/-- Every taken catalog book is accounted for: it is on loan or its title stands
in the lost ledger, and no title stands in the lost ledger twice. -/
structure Accounted (s : Library) : Prop where
  ledger_nodup : (s.lostBooks.map Book.title).Nodup
  taken_accounted : ∀ c ∈ s.libraryBooks, c.isTaken = true →
    c ∈ s.loans ∨ c.title ∈ s.lostBooks.map Book.title

/-! ## The distributions and loan issuance -/

theorem nextWord_cons (w : Nat) (ws : Rng) : nextWord (w :: ws) = (w, ws) := rfl

theorem uniformInt_range (a b : Int) (rng : Rng) (hab : a ≤ b) :
    a ≤ (uniformInt a b rng).1 ∧ (uniformInt a b rng).1 ≤ b := by
  have hpos : 0 < (b - a + 1).toNat := by omega
  have hlt := Nat.mod_lt (nextWord rng).1 hpos
  simp only [uniformInt]
  omega

theorem dist100_range (rng : Rng) : 1 ≤ (dist100 rng).1 ∧ (dist100 rng).1 ≤ 100 :=
  uniformInt_range 1 100 rng (by decide)

theorem returnDays_range (rng : Rng) : 6 ≤ (returnDays rng).1 ∧ (returnDays rng).1 ≤ 10 :=
  uniformInt_range 6 10 rng (by decide)

theorem lateDays_range (rng : Rng) : 1 ≤ (lateDays rng).1 ∧ (lateDays rng).1 ≤ 3 :=
  uniformInt_range 1 3 rng (by decide)

/-- A generator whose next word makes the distribution over `[a, b]` deliver `v`. -/
theorem uniformInt_cons (a b v : Int) (rest : Rng) (h1 : a ≤ v) (h2 : v ≤ b) :
    uniformInt a b ((v - a).toNat :: rest) = (v, rest) := by
  have hlt : (v - a).toNat < (b - a + 1).toNat := by omega
  simp only [uniformInt, nextWord_cons, Nat.mod_eq_of_lt hlt]
  congr 1
  omega

/-- Function `giveBookToReader` on an untaken book, in closed form. -/
theorem giveBookToReader_spec (reader : Reader) (book : Book) (currentDay : Int) (rng : Rng)
    (h : book.isTaken = false) :
    giveBookToReader reader book currentDay rng =
      { ok := true,
        reader :=
          { reader with
            takenBooks := reader.takenBooks ++ [issuedBook reader book currentDay rng] },
        book := issuedBook reader book currentDay rng,
        rng :=
          if issuedLate reader book rng = true ∧ reader.maxLateDays > 0
          then (lateDays (returnDays (dist100 rng).2).2).2
          else (returnDays (dist100 rng).2).2 } := by
  obtain ⟨title, returnDay, isLost, isReturnedLate, isTaken⟩ := book
  simp only at h
  subst h
  by_cases h1 : (dist100 rng).1 ≤ reader.loseChance <;>
  by_cases h2 : (dist100 rng).1 ≤ reader.loseChance + reader.lateChance <;>
  by_cases h3 : reader.maxLateDays > 0 <;>
  cases isReturnedLate <;>
  simp [giveBookToReader, issuedBook, issuedLate, h1, h2, h3]

/-! ## The return processing in closed form -/

theorem returnAll_append (ts us : List String) (books : List Book) :
    returnAll (ts ++ us) books = returnAll us (returnAll ts books) := by
  induction ts generalizing books with
  | nil => rfl
  | cons t ts ih => simp [returnAll, ih]

theorem loansOf_append (rs qs : List Reader) : loansOf (rs ++ qs) = loansOf rs ++ loansOf qs := by
  induction rs with
  | nil => rfl
  | cons r rs ih => simp [loansOf, ih]

/-- The inner loop in closed form: what the reader keeps and what becomes of the
global vectors. -/
theorem processBooks_eq (day : Int) (bs : List Book) (s : Library) :
    processBooks day bs s =
      (bs.filter (fun b => !overdue day b),
        { libraryBooks :=
            returnAll ((bs.filter (fun b => overdue day b && !b.isLost)).map Book.title)
              s.libraryBooks,
          activeReaders := s.activeReaders,
          lostBooks :=
            s.lostBooks ++ bs.filter (fun b => b.isLost && decide (b.returnDay + 1 = day)),
          lateReturnedBooks :=
            s.lateReturnedBooks ++
              bs.filter (fun b => overdue day b && !b.isLost && b.isReturnedLate),
          rng := s.rng }) := by
  induction bs generalizing s with
  | nil => simp [processBooks, returnAll]
  | cons b bs ih =>
    rw [processBooks]
    by_cases h1 : day > b.returnDay
    · have ho : overdue day b = true := by simp [overdue, h1]
      by_cases h2 : b.isLost = true
      · by_cases h3 : day = b.returnDay + 1
        · have h3' : b.returnDay + 1 = day := h3.symm
          simp only [if_pos h1, if_pos h2, if_pos h3, ih]
          simp [List.filter_cons, ho, h2, h3']
        · have h3' : ¬ b.returnDay + 1 = day := fun h => h3 h.symm
          simp only [if_pos h1, if_pos h2, if_neg h3, ih]
          simp [List.filter_cons, ho, h2, h3']
      · by_cases h4 : b.isReturnedLate = true
        · simp only [if_pos h1, if_neg h2, if_pos h4, ih]
          simp [List.filter_cons, ho, h2, h4, returnAll]
        · simp only [if_pos h1, if_neg h2, if_neg h4, ih]
          simp [List.filter_cons, ho, h2, h4, returnAll]
    · have ho : overdue day b = false := by simp [overdue, h1]
      have h3' : ¬ b.returnDay + 1 = day := by omega
      simp only [if_neg h1, ih]
      simp [List.filter_cons, ho, h3']

theorem processBooks_fst (day : Int) (bs : List Book) (s : Library) :
    (processBooks day bs s).1 = bs.filter (fun b => !overdue day b) := by
  rw [processBooks_eq]

theorem processBooks_lostBooks (day : Int) (bs : List Book) (s : Library) :
    (processBooks day bs s).2.lostBooks =
      s.lostBooks ++ bs.filter (fun b => b.isLost && decide (b.returnDay + 1 = day)) := by
  rw [processBooks_eq]

theorem processBooks_lateReturnedBooks (day : Int) (bs : List Book) (s : Library) :
    (processBooks day bs s).2.lateReturnedBooks =
      s.lateReturnedBooks ++
        bs.filter (fun b => overdue day b && !b.isLost && b.isReturnedLate) := by
  rw [processBooks_eq]

theorem processBooks_libraryBooks (day : Int) (bs : List Book) (s : Library) :
    (processBooks day bs s).2.libraryBooks =
      returnAll ((bs.filter (fun b => overdue day b && !b.isLost)).map Book.title)
        s.libraryBooks := by
  rw [processBooks_eq]

theorem processBooks_rng (day : Int) (bs : List Book) (s : Library) :
    (processBooks day bs s).2.rng = s.rng := by
  rw [processBooks_eq]

theorem processReaders_loans (day : Int) (rs : List Reader) (s : Library) :
    loansOf (processReaders day rs s).1 = (loansOf rs).filter (fun b => !overdue day b) := by
  induction rs generalizing s with
  | nil => rfl
  | cons r rs ih =>
    simp only [processReaders, processBooks_fst]
    split
    · rename_i h
      simp only [loansOf, List.filter_append, ih]
      simp only [List.isEmpty_iff] at h
      simp [h]
    · simp only [loansOf, List.filter_append, ih]

theorem processReaders_lostBooks (day : Int) (rs : List Reader) (s : Library) :
    (processReaders day rs s).2.lostBooks =
      s.lostBooks ++ (loansOf rs).filter (fun b => b.isLost && decide (b.returnDay + 1 = day)) := by
  induction rs generalizing s with
  | nil => simp [processReaders, loansOf]
  | cons r rs ih =>
    simp only [processReaders]
    split <;> simp [loansOf, ih, processBooks_lostBooks]

theorem processReaders_lateReturnedBooks (day : Int) (rs : List Reader) (s : Library) :
    (processReaders day rs s).2.lateReturnedBooks =
      s.lateReturnedBooks ++
        (loansOf rs).filter (fun b => overdue day b && !b.isLost && b.isReturnedLate) := by
  induction rs generalizing s with
  | nil => simp [processReaders, loansOf]
  | cons r rs ih =>
    simp only [processReaders]
    split <;> simp [loansOf, ih, processBooks_lateReturnedBooks]

theorem processReaders_libraryBooks (day : Int) (rs : List Reader) (s : Library) :
    (processReaders day rs s).2.libraryBooks =
      returnAll (((loansOf rs).filter (fun b => overdue day b && !b.isLost)).map Book.title)
        s.libraryBooks := by
  induction rs generalizing s with
  | nil => simp [processReaders, loansOf, returnAll]
  | cons r rs ih =>
    simp only [processReaders]
    split <;> simp [loansOf, ih, processBooks_libraryBooks, returnAll_append]

theorem processReaders_rng (day : Int) (rs : List Reader) (s : Library) :
    (processReaders day rs s).2.rng = s.rng := by
  induction rs generalizing s with
  | nil => rfl
  | cons r rs ih =>
    simp only [processReaders]
    split <;> simp [ih, processBooks_rng]

theorem processReaders_nonempty (day : Int) (rs : List Reader) (s : Library) :
    ∀ r ∈ (processReaders day rs s).1, r.takenBooks ≠ [] := by
  induction rs generalizing s with
  | nil => simp [processReaders]
  | cons r rs ih =>
    simp only [processReaders]
    split
    · exact ih _
    · rename_i h
      intro q hq
      rcases List.mem_cons.mp hq with rfl | hq
      · simpa using h
      · exact ih _ q hq

/-! ## The arrival of a reader -/

theorem uniformSize_zero_le (n : Nat) (rng : Rng) : (uniformSize 0 n rng).1 ≤ n := by
  have hlt : (nextWord rng).1 % (n + 1) < n + 1 := Nat.mod_lt _ (Nat.succ_pos n)
  simp only [uniformSize, Nat.sub_zero]
  omega

theorem mem_availableFrom (i k : Nat) (bs : List Book) (h : k ∈ availableFrom i bs) :
    ∃ j, k = i + j ∧ ∃ c, bs[j]? = some c ∧ c.isTaken = false := by
  induction bs generalizing i with
  | nil => simp [availableFrom] at h
  | cons b bs ih =>
    simp only [availableFrom] at h
    split at h
    · rename_i hb
      rcases List.mem_cons.mp h with rfl | h
      · exact ⟨0, rfl, b, by simp, by simpa using hb⟩
      · obtain ⟨j, hj, c, hc, hct⟩ := ih (i + 1) h
        exact ⟨j + 1, by omega, c, by simpa using hc, hct⟩
    · obtain ⟨j, hj, c, hc, hct⟩ := ih (i + 1) h
      exact ⟨j + 1, by omega, c, by simpa using hc, hct⟩

theorem mem_availableIndices (k : Nat) (bs : List Book) (h : k ∈ availableIndices bs) :
    ∃ c, bs[k]? = some c ∧ c.isTaken = false := by
  obtain ⟨j, hj, c, hc, hct⟩ := mem_availableFrom 0 k bs h
  have : k = j := by omega
  subst this
  exact ⟨c, hc, hct⟩

theorem availableFrom_eq_nil (i : Nat) (bs : List Book) :
    availableFrom i bs = [] ↔ ∀ b ∈ bs, b.isTaken = true := by
  induction bs generalizing i with
  | nil => simp [availableFrom]
  | cons b bs ih =>
    simp only [availableFrom]
    cases hb : b.isTaken <;> simp [hb, ih]

/-- The book handed out by an arrival: the chosen index is one of the untaken books. -/
theorem arrival_index (bs : List Book) (rng : Rng) (h : availableIndices bs ≠ []) :
    ∃ c, bs[(availableIndices bs).getD
        (uniformSize 0 ((availableIndices bs).length - 1) rng).1 0]? = some c ∧
      c.isTaken = false := by
  apply mem_availableIndices
  have hpos : 0 < (availableIndices bs).length := List.length_pos.mpr h
  have hle := uniformSize_zero_le ((availableIndices bs).length - 1) rng
  have hlt : (uniformSize 0 ((availableIndices bs).length - 1) rng).1 <
      (availableIndices bs).length := by omega
  rw [List.getD_eq_getElem _ _ hlt]
  exact List.getElem_mem _

theorem createRandomReader_takenBooks (day : Int) (rng : Rng) :
    (createRandomReader day rng).1.takenBooks = [] := rfl

/-- The two ways the first part of the day can go: no reader arrives, or an
untaken catalog book is handed to a new reader who holds nothing else. -/
theorem arrival_cases (day : Int) (s : Library) :
    (arrival day s = { s with rng := (dist100 s.rng).2 } ∧
      ((dist100 s.rng).1 > 50 ∨ ∀ b ∈ s.libraryBooks, b.isTaken = true)) ∨
    (∃ i c reader rng,
      (dist100 s.rng).1 ≤ 50 ∧
      s.libraryBooks[i]? = some c ∧ c.isTaken = false ∧ reader.takenBooks = [] ∧
      arrival day s =
        { s with
          libraryBooks := s.libraryBooks.set i (giveBookToReader reader c day rng).book,
          activeReaders := s.activeReaders ++ [(giveBookToReader reader c day rng).reader],
          rng := (giveBookToReader reader c day rng).rng }) := by
  by_cases h1 : (dist100 s.rng).1 ≤ 50
  · by_cases h2 : availableIndices s.libraryBooks = []
    · left
      refine ⟨?_, Or.inr ((availableFrom_eq_nil 0 _).mp h2)⟩
      simp [arrival, h1, h2]
    · right
      obtain ⟨c, hc, hct⟩ := arrival_index s.libraryBooks (dist100 s.rng).2 h2
      refine ⟨_, c, (createRandomReader day
          (uniformSize 0 ((availableIndices s.libraryBooks).length - 1) (dist100 s.rng).2).2).1,
        (createRandomReader day
          (uniformSize 0 ((availableIndices s.libraryBooks).length - 1) (dist100 s.rng).2).2).2,
        h1, hc, hct, createRandomReader_takenBooks day _, ?_⟩
      have hget : s.libraryBooks.getD ((availableIndices s.libraryBooks).getD
          (uniformSize 0 ((availableIndices s.libraryBooks).length - 1) (dist100 s.rng).2).1 0)
          default = c := by
        rw [List.getD_eq_getElem?_getD, hc]; rfl
      have hok : ∀ r d g, (giveBookToReader r c d g).ok = true := by
        intro r d g
        rw [giveBookToReader_spec r c d g hct]
      simp only [arrival, if_pos h1, List.isEmpty_iff, if_neg h2, hget, hok, if_true]
  · left
    refine ⟨?_, Or.inl (by omega)⟩
    simp [arrival, h1]

/-! ## The daily step in closed form -/

theorem resolution_loans (day : Int) (s : Library) :
    (resolution day s).loans = s.loans.filter (fun b => !overdue day b) := by
  simp only [Library.loans, resolution, processReaders_loans]

theorem resolution_lostBooks (day : Int) (s : Library) :
    (resolution day s).lostBooks =
      s.lostBooks ++ s.loans.filter (fun b => b.isLost && decide (b.returnDay + 1 = day)) := by
  simp only [Library.loans, resolution, processReaders_lostBooks]

theorem resolution_lateReturnedBooks (day : Int) (s : Library) :
    (resolution day s).lateReturnedBooks =
      s.lateReturnedBooks ++
        s.loans.filter (fun b => overdue day b && !b.isLost && b.isReturnedLate) := by
  simp only [Library.loans, resolution, processReaders_lateReturnedBooks]

theorem resolution_libraryBooks (day : Int) (s : Library) :
    (resolution day s).libraryBooks =
      returnAll ((s.loans.filter (fun b => overdue day b && !b.isLost)).map Book.title)
        s.libraryBooks := by
  simp only [Library.loans, resolution, processReaders_libraryBooks]

theorem resolution_rng (day : Int) (s : Library) : (resolution day s).rng = s.rng := by
  simp only [resolution, processReaders_rng]

/-- What `giveBookToReader` makes of an untaken book. -/
theorem giveBookToReader_book (reader : Reader) (book : Book) (currentDay : Int) (rng : Rng)
    (h : book.isTaken = false) :
    (giveBookToReader reader book currentDay rng).book.title = book.title ∧
    (giveBookToReader reader book currentDay rng).book.isTaken = true ∧
    currentDay + 6 ≤ (giveBookToReader reader book currentDay rng).book.returnDay ∧
    (giveBookToReader reader book currentDay rng).reader.takenBooks =
      reader.takenBooks ++ [(giveBookToReader reader book currentDay rng).book] := by
  have hb := returnDays_range (dist100 rng).2
  have hl := lateDays_range (returnDays (dist100 rng).2).2
  rw [giveBookToReader_spec reader book currentDay rng h]
  refine ⟨rfl, rfl, ?_, rfl⟩
  simp only [issuedBook]
  split <;> omega

/-- The loans at the return processing: those held before, followed by the new
loan when a reader arrived; the new loan is due no earlier than six days on. -/
theorem arrival_loans (day : Int) (s : Library) :
    ∃ extra : List Book, (arrival day s).loans = s.loans ++ extra ∧
      ∀ n ∈ extra, day + 6 ≤ n.returnDay := by
  rcases arrival_cases day s with ⟨h, _⟩ | ⟨i, c, reader, rng, _, _, hct, hrd, h⟩
  · exact ⟨[], by simp [h, Library.loans], by simp⟩
  · obtain ⟨_, _, hday, htb⟩ := giveBookToReader_book reader c day rng hct
    refine ⟨[(giveBookToReader reader c day rng).book], ?_, ?_⟩
    · rw [h]
      simp [Library.loans, loansOf_append, loansOf, htb, hrd]
    · intro n hn
      rw [List.mem_singleton.mp hn]
      exact hday

theorem arrival_lostBooks (day : Int) (s : Library) :
    (arrival day s).lostBooks = s.lostBooks := by
  rcases arrival_cases day s with ⟨h, _⟩ | ⟨i, c, reader, rng, _, _, _, _, h⟩ <;> rw [h]

theorem arrival_lateReturnedBooks (day : Int) (s : Library) :
    (arrival day s).lateReturnedBooks = s.lateReturnedBooks := by
  rcases arrival_cases day s with ⟨h, _⟩ | ⟨i, c, reader, rng, _, _, _, _, h⟩ <;> rw [h]

/-- The loans after the day: the earlier loans that are not overdue, followed by
the new loan when a reader arrived. -/
theorem processDay_loans (day : Int) (s : Library) :
    ∃ extra : List Book,
      (processDay day s).loans = s.loans.filter (fun b => !overdue day b) ++ extra ∧
      ∀ n ∈ extra, day + 6 ≤ n.returnDay := by
  obtain ⟨extra, hl, hx⟩ := arrival_loans day s
  refine ⟨extra, ?_, hx⟩
  rw [processDay, resolution_loans, hl, List.filter_append]
  congr 1
  apply List.filter_eq_self.mpr
  intro n hn
  have := hx n hn
  simp only [overdue, Bool.not_eq_true', decide_eq_false_iff_not]
  omega

/-- The lost ledger after the day in terms of the loans held before it: a loan
issued on the day itself is never recorded on that day. -/
theorem processDay_lostBooks_before (day : Int) (s : Library) :
    (processDay day s).lostBooks =
      s.lostBooks ++ s.loans.filter (fun b => b.isLost && decide (b.returnDay + 1 = day)) := by
  obtain ⟨extra, hl, hx⟩ := arrival_loans day s
  rw [processDay, resolution_lostBooks, arrival_lostBooks, hl, List.filter_append]
  have : extra.filter (fun b => b.isLost && decide (b.returnDay + 1 = day)) = [] := by
    apply List.filter_eq_nil_iff.mpr
    intro n hn
    have := hx n hn
    simp only [Bool.and_eq_true, decide_eq_true_eq, not_and]
    omega
  rw [this, List.append_nil]

/-! ## Loan issuance: the claims -/

/-- C1: for every reader, every book with `isTaken = true` and every day,
`giveBookToReader` returns false and leaves the book (all five fields), the
reader with its loan sequence, and the generator unchanged. -/
theorem giveBookToReader_taken (reader : Reader) (book : Book) (currentDay : Int) (rng : Rng)
    (h : book.isTaken = true) :
    (giveBookToReader reader book currentDay rng).ok = false ∧
    (giveBookToReader reader book currentDay rng).book = book ∧
    (giveBookToReader reader book currentDay rng).reader = reader ∧
    (giveBookToReader reader book currentDay rng).reader.takenBooks = reader.takenBooks ∧
    (giveBookToReader reader book currentDay rng).rng = rng := by
  simp [giveBookToReader, h]

/-- A taken book offered to a greedy reader on day 4: nothing changes. -/
theorem giveBookToReader_taken_witness :
    (giveBookToReader { type := .GreedyReader, name := "g", takenBooks := [] }
        { title := "1984", returnDay := 9, isTaken := true } 4 [3, 1, 2]).ok = false ∧
    (giveBookToReader { type := .GreedyReader, name := "g", takenBooks := [] }
        { title := "1984", returnDay := 9, isTaken := true } 4 [3, 1, 2]).rng = [3, 1, 2] :=
  have h := giveBookToReader_taken { type := .GreedyReader, name := "g", takenBooks := [] }
    { title := "1984", returnDay := 9, isTaken := true } 4 [3, 1, 2] rfl
  ⟨h.1, h.2.2.2.2⟩

/-- C2: for every reader, every book with `isTaken = false`, every day and
every draw triple (`chance` in 1..100, `base` in 6..10, `extra` in 1..3, the
generator delivering exactly these), `giveBookToReader` returns true, sets
`isLost = (chance <= loseChance)`, sets
`isReturnedLate = (chance <= loseChance + lateChance)` when not lost, sets
`returnDay = currentDay + base`, plus `extra` exactly when the loan is late and
`maxLateDays > 0`, sets `isTaken = true`, keeps the title, and the loan sequence
of the reader afterwards is the previous one followed by the updated book. -/
theorem giveBookToReader_untaken (reader : Reader) (book : Book) (currentDay : Int)
    (chance base extra : Int) (rest : Rng) (h : book.isTaken = false)
    (hc : 1 ≤ chance ∧ chance ≤ 100) (hb : 6 ≤ base ∧ base ≤ 10)
    (he : 1 ≤ extra ∧ extra ≤ 3) :
    (dist100 (wordsFor chance base extra rest)).1 = chance ∧
    (returnDays (dist100 (wordsFor chance base extra rest)).2).1 = base ∧
    (lateDays (returnDays (dist100 (wordsFor chance base extra rest)).2).2).1 = extra ∧
    (giveBookToReader reader book currentDay (wordsFor chance base extra rest)).ok = true ∧
    (giveBookToReader reader book currentDay (wordsFor chance base extra rest)).book.isLost
      = decide (chance ≤ reader.loseChance) ∧
    ((giveBookToReader reader book currentDay (wordsFor chance base extra rest)).book.isLost
        = false →
      (giveBookToReader reader book currentDay
          (wordsFor chance base extra rest)).book.isReturnedLate
        = decide (chance ≤ reader.loseChance + reader.lateChance)) ∧
    (giveBookToReader reader book currentDay (wordsFor chance base extra rest)).book.returnDay
      = currentDay + base +
        (if (giveBookToReader reader book currentDay
                (wordsFor chance base extra rest)).book.isReturnedLate = true
              ∧ reader.maxLateDays > 0
          then extra else 0) ∧
    (giveBookToReader reader book currentDay (wordsFor chance base extra rest)).book.isTaken
      = true ∧
    (giveBookToReader reader book currentDay (wordsFor chance base extra rest)).book.title
      = book.title ∧
    (giveBookToReader reader book currentDay
        (wordsFor chance base extra rest)).reader.takenBooks
      = reader.takenBooks ++
        [(giveBookToReader reader book currentDay (wordsFor chance base extra rest)).book] := by
  have e1 : dist100 (wordsFor chance base extra rest)
      = (chance, (base - 6).toNat :: (extra - 1).toNat :: rest) :=
    uniformInt_cons 1 100 chance _ hc.1 hc.2
  have e2 : returnDays ((base - 6).toNat :: (extra - 1).toNat :: rest)
      = (base, (extra - 1).toNat :: rest) :=
    uniformInt_cons 6 10 base _ hb.1 hb.2
  have e3 : lateDays ((extra - 1).toNat :: rest) = (extra, rest) :=
    uniformInt_cons 1 3 extra _ he.1 he.2
  rw [giveBookToReader_spec reader book currentDay _ h]
  simp only [issuedBook, issuedLate, e1, e2, e3]
  refine ⟨trivial, trivial, trivial, trivial, trivial, ?_, trivial, trivial, trivial, trivial⟩
  intro hl
  have hn : ¬ chance ≤ reader.loseChance := by simpa using hl
  simp [hn]

/-- A forgetful reader drawing `chance = 20`, `base = 8`, `extra = 2` on day 4:
the loan is late and due on day 14. -/
theorem giveBookToReader_untaken_witness :
    (giveBookToReader { type := .ForgetfulReader, name := "f", takenBooks := [] }
      { title := "1984" } 4 [19, 2, 1, 7]).book
      = { title := "1984", returnDay := 14, isLost := false, isReturnedLate := true,
          isTaken := true } ∧
    (giveBookToReader { type := .ForgetfulReader, name := "f", takenBooks := [] }
      { title := "1984" } 4 [19, 2, 1, 7]).book.returnDay
      = 4 + 8 +
        (if (giveBookToReader { type := .ForgetfulReader, name := "f", takenBooks := [] }
              { title := "1984" } 4 [19, 2, 1, 7]).book.isReturnedLate = true ∧
            Reader.maxLateDays { type := .ForgetfulReader, name := "f", takenBooks := [] } > 0
          then 2 else 0) :=
  ⟨by decide,
    (giveBookToReader_untaken { type := .ForgetfulReader, name := "f", takenBooks := [] }
      { title := "1984" } 4 20 8 2 [7] rfl (by decide) (by decide) (by decide)).2.2.2.2.2.2.1⟩

/-- C3, as stated, fails: an untaken book whose late flag is still set, issued
to an ordinary reader with the draw `chance = 1`, yields a loan that is both
lost and late. -/
theorem giveBookToReader_lost_and_late :
    (giveBookToReader { type := .OrdinaryReader, name := "r", takenBooks := [] }
      { title := "X", isReturnedLate := true, isTaken := false } 1 [0]).reader.takenBooks
      = [{ title := "X", returnDay := 7, isLost := true, isReturnedLate := true,
           isTaken := true }] := by
  decide

/-- C3, amended: for every reader, every book with `isTaken = false` and
`isReturnedLate = false`, and every draw, the loan that `giveBookToReader`
appends to the reader never has both `isLost` and `isReturnedLate` true. -/
theorem giveBookToReader_exclusive (reader : Reader) (book : Book) (currentDay : Int)
    (rng : Rng) (h : book.isTaken = false) (hl : book.isReturnedLate = false) :
    (giveBookToReader reader book currentDay rng).reader.takenBooks =
      reader.takenBooks ++ [(giveBookToReader reader book currentDay rng).book] ∧
    ¬ ((giveBookToReader reader book currentDay rng).book.isLost = true ∧
        (giveBookToReader reader book currentDay rng).book.isReturnedLate = true) := by
  rw [giveBookToReader_spec reader book currentDay rng h]
  refine ⟨rfl, ?_⟩
  simp only [issuedBook, issuedLate, hl]
  by_cases h1 : (dist100 rng).1 ≤ reader.loseChance <;> simp [h1]

/-- A fresh book issued to an ordinary reader with the draw `chance = 1`: lost,
not late. -/
theorem giveBookToReader_exclusive_witness :
    ¬ ((giveBookToReader { type := .OrdinaryReader, name := "r", takenBooks := [] }
          { title := "X" } 1 [0]).book.isLost = true ∧
        (giveBookToReader { type := .OrdinaryReader, name := "r", takenBooks := [] }
          { title := "X" } 1 [0]).book.isReturnedLate = true) :=
  (giveBookToReader_exclusive { type := .OrdinaryReader, name := "r", takenBooks := [] }
    { title := "X" } 1 [0] rfl rfl).2

/-! ## The ledgers and the active readers after a day -/

theorem count_filter_of_neg (p : Book → Bool) (b : Book) (l : List Book) (h : p b = false) :
    (l.filter p).count b = 0 := by
  apply List.count_eq_zero.mpr
  intro hb
  have := (List.mem_filter.mp hb).2
  simp [h] at this

theorem count_filter_of_pos (p : Book → Bool) (b : Book) (l : List Book) (h : p b = true) :
    (l.filter p).count b = l.count b :=
  List.count_filter h

theorem count_eq_zero_of_returnDay (b : Book) (l : List Book)
    (h : ∀ n ∈ l, n.returnDay ≠ b.returnDay) : l.count b = 0 := by
  apply List.count_eq_zero.mpr
  intro hb
  exact h b hb rfl

/-- C4: for every state and day, the lost ledger after `processDay` is the
ledger before it followed by exactly the loans held at the return processing (in
reader order, then loan order) with `isLost = true` and `returnDay + 1 = day`.
In particular a lost loan with `returnDay = 10` that a reader holds once adds
nothing on day 10 and stays with the reader, adds one entry on day 11 and leaves
the reader, and adds nothing on day 12. -/
theorem lost_ledger_after_day :
    (∀ (day : Int) (s : Library),
      (processDay day s).lostBooks =
        s.lostBooks ++
          (arrival day s).loans.filter
            (fun b => b.isLost && decide (b.returnDay + 1 = day))) ∧
    (∀ (s : Library) (b : Book), b.isLost = true → b.returnDay = 10 → s.loans.count b = 1 →
      (processDay 10 s).lostBooks.count b = s.lostBooks.count b ∧
      b ∈ (processDay 10 s).loans ∧
      (processDay 11 (processDay 10 s)).lostBooks.count b = s.lostBooks.count b + 1 ∧
      b ∉ (processDay 11 (processDay 10 s)).loans ∧
      (processDay 12 (processDay 11 (processDay 10 s))).lostBooks.count b =
        s.lostBooks.count b + 1) := by
  constructor
  · intro day s
    rw [processDay, resolution_lostBooks, arrival_lostBooks]
  · intro s b hl hr hc
    obtain ⟨e10, hl10, hx10⟩ := processDay_loans 10 s
    obtain ⟨e11, hl11, hx11⟩ := processDay_loans 11 (processDay 10 s)
    have hp10 : (fun b : Book => b.isLost && decide (b.returnDay + 1 = 10)) b = false := by
      simp [hr]
    have hp11 : (fun b : Book => b.isLost && decide (b.returnDay + 1 = 11)) b = true := by
      simp [hl, hr]
    have hp12 : (fun b : Book => b.isLost && decide (b.returnDay + 1 = 12)) b = false := by
      simp [hr]
    have ho10 : (fun b : Book => !overdue 10 b) b = true := by simp [overdue, hr]
    have ho11 : (fun b : Book => !overdue 11 b) b = false := by simp [overdue, hr]
    have he10 : e10.count b = 0 :=
      count_eq_zero_of_returnDay b e10 (fun n hn => by have := hx10 n hn; omega)
    have he11 : e11.count b = 0 :=
      count_eq_zero_of_returnDay b e11 (fun n hn => by have := hx11 n hn; omega)
    have hc10 : (processDay 10 s).loans.count b = 1 := by
      rw [hl10, List.count_append, count_filter_of_pos _ b _ ho10, hc, he10]
    have h10 : (processDay 10 s).lostBooks.count b = s.lostBooks.count b := by
      rw [processDay_lostBooks_before, List.count_append, count_filter_of_neg _ b _ hp10,
        Nat.add_zero]
    have h11 : (processDay 11 (processDay 10 s)).lostBooks.count b = s.lostBooks.count b + 1 := by
      rw [processDay_lostBooks_before, List.count_append, count_filter_of_pos _ b _ hp11, h10, hc10]
    have hc11 : (processDay 11 (processDay 10 s)).loans.count b = 0 := by
      rw [hl11, List.count_append, count_filter_of_neg _ b _ ho11, he11]
    refine ⟨h10, ?_, h11, List.count_eq_zero.mp hc11, ?_⟩
    · apply List.count_pos_iff.mp
      omega
    · rw [processDay_lostBooks_before, List.count_append, count_filter_of_neg _ b _ hp12,
        Nat.add_zero, h11]

/-- A reader holding one lost loan due on day 10, no arrivals: nothing is
recorded on day 10, one entry on day 11. -/
theorem lost_ledger_after_day_witness :
    (processDay 10
        { activeReaders :=
            [{ type := .OrdinaryReader, name := "r",
               takenBooks := [{ title := "X", returnDay := 10, isLost := true,
                                isTaken := true }] }],
          rng := [99, 99, 99] }).lostBooks.count
        { title := "X", returnDay := 10, isLost := true, isTaken := true } = 0 ∧
    (processDay 11 (processDay 10
        { activeReaders :=
            [{ type := .OrdinaryReader, name := "r",
               takenBooks := [{ title := "X", returnDay := 10, isLost := true,
                                isTaken := true }] }],
          rng := [99, 99, 99] })).lostBooks.count
        { title := "X", returnDay := 10, isLost := true, isTaken := true } = 0 + 1 :=
  have h := lost_ledger_after_day.2
    { activeReaders :=
        [{ type := .OrdinaryReader, name := "r",
           takenBooks := [{ title := "X", returnDay := 10, isLost := true,
                            isTaken := true }] }],
      rng := [99, 99, 99] }
    { title := "X", returnDay := 10, isLost := true, isTaken := true }
    rfl rfl (by decide)
  ⟨h.1, h.2.2.1⟩

/-- C6: for every state and day, the late ledger after `processDay` is the
ledger before it followed by exactly the loans held at the return processing (in
reader order, then loan order) that are overdue (`day > returnDay`), not lost
and late; every overdue loan leaves its reader in the same call, so no loan that
was appended is still held afterwards. -/
theorem late_ledger_after_day (day : Int) (s : Library) :
    (processDay day s).lateReturnedBooks =
      s.lateReturnedBooks ++
        (arrival day s).loans.filter
          (fun b => decide (day > b.returnDay) && !b.isLost && b.isReturnedLate) ∧
    (∀ b ∈ (processDay day s).loans, ¬ day > b.returnDay) ∧
    (∀ b ∈ (arrival day s).loans.filter
          (fun b => decide (day > b.returnDay) && !b.isLost && b.isReturnedLate),
      b ∉ (processDay day s).loans) := by
  have hkept : ∀ b ∈ (processDay day s).loans, ¬ day > b.returnDay := by
    intro b hb
    rw [processDay, resolution_loans] at hb
    simpa [overdue] using (List.mem_filter.mp hb).2
  refine ⟨?_, hkept, ?_⟩
  · rw [processDay, resolution_lateReturnedBooks, arrival_lateReturnedBooks]
    rfl
  · intro b hb hmem
    have h1 := (List.mem_filter.mp hb).2
    simp only [Bool.and_eq_true, decide_eq_true_eq] at h1
    exact hkept b hmem h1.1.1

/-- A late loan due on day 8 goes to the late ledger on day 9 and leaves its
reader. -/
theorem late_ledger_after_day_witness :
    (processDay 9
        { libraryBooks := [{ title := "Y", returnDay := 8, isReturnedLate := true,
                             isTaken := true }],
          activeReaders :=
            [{ type := .ForgetfulReader, name := "f",
               takenBooks := [{ title := "Y", returnDay := 8, isReturnedLate := true,
                                isTaken := true }] }],
          rng := [99] }).lateReturnedBooks
      = [{ title := "Y", returnDay := 8, isReturnedLate := true, isTaken := true }] ∧
    ({ title := "Y", returnDay := 8, isReturnedLate := true, isTaken := true } : Book) ∉
      (processDay 9
        { libraryBooks := [{ title := "Y", returnDay := 8, isReturnedLate := true,
                             isTaken := true }],
          activeReaders :=
            [{ type := .ForgetfulReader, name := "f",
               takenBooks := [{ title := "Y", returnDay := 8, isReturnedLate := true,
                                isTaken := true }] }],
          rng := [99] }).loans :=
  ⟨by decide,
    (late_ledger_after_day 9
      { libraryBooks := [{ title := "Y", returnDay := 8, isReturnedLate := true,
                           isTaken := true }],
        activeReaders :=
          [{ type := .ForgetfulReader, name := "f",
             takenBooks := [{ title := "Y", returnDay := 8, isReturnedLate := true,
                              isTaken := true }] }],
        rng := [99] }).2.2
      { title := "Y", returnDay := 8, isReturnedLate := true, isTaken := true }
      (by decide)⟩

/-- C10: for every state and day, after `processDay` every active reader holds
at least one loan. -/
theorem processDay_readers_nonempty (day : Int) (s : Library) :
    ∀ r ∈ (processDay day s).activeReaders, r.takenBooks ≠ [] := by
  intro r hr
  exact processReaders_nonempty day _ _ r hr

/-- The reader who arrives on day 1 is active after that day and holds a loan. -/
theorem processDay_readers_nonempty_witness :
    Reader.takenBooks
        { type := .OrdinaryReader, name := "Обычный_1",
          takenBooks := [{ title := "Преступление и наказание", returnDay := 7,
                           isLost := true, isTaken := true }] } ≠ [] :=
  processDay_readers_nonempty 1 (initLibrary [0, 0, 0, 0, 0])
    { type := .OrdinaryReader, name := "Обычный_1",
      takenBooks := [{ title := "Преступление и наказание", returnDay := 7,
                       isLost := true, isTaken := true }] }
    (by decide)

/-! ## The catalog after the return processing -/

theorem returnBookToLibrary_title (c : Book) : (returnBookToLibrary c).title = c.title := by
  simp only [returnBookToLibrary]
  split <;> rfl

theorem returnBookToLibrary_isLost (c : Book) : (returnBookToLibrary c).isLost = c.isLost := by
  simp only [returnBookToLibrary]
  split <;> rfl

theorem returnBookToLibrary_isTaken (c : Book) : (returnBookToLibrary c).isTaken = false := by
  simp only [returnBookToLibrary]
  split <;> rfl

theorem returnBookToLibrary_isReturnedLate (c : Book) (h : c.isLost = false) :
    (returnBookToLibrary c).isReturnedLate = false := by
  simp [returnBookToLibrary, h]

theorem returnByTitle_titles (t : String) (books : List Book) :
    (returnByTitle t books).map Book.title = books.map Book.title := by
  induction books with
  | nil => rfl
  | cons c cs ih =>
    simp only [returnByTitle]
    split
    · simp [returnBookToLibrary_title]
    · simp [ih]

theorem returnAll_titles (ts : List String) (books : List Book) :
    (returnAll ts books).map Book.title = books.map Book.title := by
  induction ts generalizing books with
  | nil => rfl
  | cons t ts ih => rw [returnAll, ih, returnByTitle_titles]

theorem returnByTitle_returned_self (t : String) (books : List Book)
    (h : t ∈ books.map Book.title) : Returned t (returnByTitle t books) := by
  induction books with
  | nil => simp at h
  | cons c cs ih =>
    simp only [returnByTitle]
    by_cases hc : c.title = t
    · refine ⟨returnBookToLibrary c, ?_, returnBookToLibrary_isTaken c, ?_⟩
      · simp [hc, returnBookToLibrary_title]
      · intro hl
        rw [returnBookToLibrary_isLost] at hl
        exact returnBookToLibrary_isReturnedLate c hl
    · have hmem : t ∈ cs.map Book.title := by
        simp only [List.map_cons, List.mem_cons] at h
        rcases h with h | h
        · exact absurd h.symm hc
        · exact h
      obtain ⟨d, hd, hd1, hd2⟩ := ih hmem
      exact ⟨d, by simp [hc, hd], hd1, hd2⟩

theorem returnByTitle_returned_other (t u : String) (books : List Book)
    (h : Returned t books) : Returned t (returnByTitle u books) := by
  induction books with
  | nil => exact h
  | cons c cs ih =>
    obtain ⟨d, hd, hd1, hd2⟩ := h
    simp only [returnByTitle]
    by_cases hu : c.title = u
    · simp only [if_pos hu]
      by_cases hc : c.title = t
      · have hdc : d = c := by simpa [List.find?_cons, hc] using hd.symm
        subst hdc
        refine ⟨returnBookToLibrary d, by simp [returnBookToLibrary_title, hc],
          returnBookToLibrary_isTaken d, ?_⟩
        intro hl
        rw [returnBookToLibrary_isLost] at hl
        exact returnBookToLibrary_isReturnedLate d hl
      · refine ⟨d, ?_, hd1, hd2⟩
        simpa [List.find?_cons, hc, returnBookToLibrary_title] using hd
    · simp only [if_neg hu]
      by_cases hc : c.title = t
      · exact ⟨d, by simpa [List.find?_cons, hc] using hd, hd1, hd2⟩
      · have hd' : cs.find? (fun c => decide (c.title = t)) = some d := by
          simpa [List.find?_cons, hc] using hd
        obtain ⟨e, he, he1, he2⟩ := ih ⟨d, hd', hd1, hd2⟩
        exact ⟨e, by simpa [List.find?_cons, hc] using he, he1, he2⟩

theorem returnAll_returned_of (t : String) (ts : List String) (books : List Book)
    (h : Returned t books) : Returned t (returnAll ts books) := by
  induction ts generalizing books with
  | nil => exact h
  | cons u ts ih => exact ih _ (returnByTitle_returned_other t u books h)

theorem returnAll_returned (t : String) (ts : List String) (books : List Book)
    (ht : t ∈ ts) (h : t ∈ books.map Book.title) : Returned t (returnAll ts books) := by
  induction ts generalizing books with
  | nil => simp at ht
  | cons u ts ih =>
    rw [returnAll]
    by_cases hu : u = t
    · subst hu
      exact returnAll_returned_of u ts _ (returnByTitle_returned_self u books h)
    · have ht' : t ∈ ts := by
        rcases List.mem_cons.mp ht with h1 | h1
        · exact absurd h1.symm hu
        · exact h1
      exact ih _ ht' (by rw [returnByTitle_titles]; exact h)

theorem map_set_of_eq {α β : Type} (f : α → β) (l : List α) (i : Nat) (c x : α)
    (hc : l[i]? = some c) (hx : f x = f c) : (l.set i x).map f = l.map f := by
  induction l generalizing i with
  | nil => simp
  | cons a as ih =>
    cases i with
    | zero =>
      have : a = c := by simpa using hc
      simp [this, hx]
    | succ i =>
      have : as[i]? = some c := by simpa using hc
      simp [ih i this]

theorem arrival_titles (day : Int) (s : Library) :
    (arrival day s).libraryBooks.map Book.title = s.libraryBooks.map Book.title := by
  rcases arrival_cases day s with ⟨h, _⟩ | ⟨i, c, reader, rng, _, hc, hct, _, h⟩
  · rw [h]
  · rw [h]
    exact map_set_of_eq Book.title _ i c _ hc (giveBookToReader_book reader c day rng hct).1

/-- C7: for every state and day, if an active reader holds at the return
processing a loan that is not lost and is overdue (`day > returnDay`) and whose
title occurs in the catalog, then after `processDay` the catalog book with that
title (the first one, the one the lookup by title finds) has `isTaken = false`,
and `isReturnedLate = false` when that catalog copy is not marked lost. -/
theorem processDay_returns_book (day : Int) (s : Library) (b : Book)
    (hb : b ∈ (arrival day s).loans) (hl : b.isLost = false) (ho : day > b.returnDay)
    (ht : b.title ∈ s.libraryBooks.map Book.title) :
    ∃ c, (processDay day s).libraryBooks.find? (fun c => decide (c.title = b.title)) = some c ∧
      c.isTaken = false ∧ (c.isLost = false → c.isReturnedLate = false) := by
  rw [processDay, resolution_libraryBooks]
  apply returnAll_returned
  · apply List.mem_map.mpr
    exact ⟨b, List.mem_filter.mpr ⟨hb, by simp [overdue, ho, hl]⟩, rfl⟩
  · rw [arrival_titles]
    exact ht

/-- A late loan on "Y" due on day 8: on day 9 the catalog book "Y" is back in
circulation. -/
theorem processDay_returns_book_witness :
    ∃ c, (processDay 9
        { libraryBooks := [{ title := "Y", returnDay := 8, isReturnedLate := true,
                             isTaken := true }],
          activeReaders :=
            [{ type := .ForgetfulReader, name := "f",
               takenBooks := [{ title := "Y", returnDay := 8, isReturnedLate := true,
                                isTaken := true }] }],
          rng := [99] }).libraryBooks.find? (fun c => decide (c.title = "Y")) = some c ∧
      c.isTaken = false ∧ (c.isLost = false → c.isReturnedLate = false) :=
  processDay_returns_book 9
    { libraryBooks := [{ title := "Y", returnDay := 8, isReturnedLate := true,
                         isTaken := true }],
      activeReaders :=
        [{ type := .ForgetfulReader, name := "f",
           takenBooks := [{ title := "Y", returnDay := 8, isReturnedLate := true,
                            isTaken := true }] }],
      rng := [99] }
    { title := "Y", returnDay := 8, isReturnedLate := true, isTaken := true }
    (by decide) rfl (by decide) (by decide)

/-! ## The catalog as a map over its books, when titles are distinct -/

theorem map_eq_self {α : Type} (f : α → α) (l : List α) (h : ∀ x ∈ l, f x = x) :
    l.map f = l := by
  induction l with
  | nil => rfl
  | cons a as ih =>
    simp only [List.map_cons]
    rw [h a (List.mem_cons_self a as), ih (fun x hx => h x (List.mem_cons_of_mem a hx))]

theorem mem_of_getElem? {α : Type} (l : List α) (i : Nat) (c : α) (h : l[i]? = some c) :
    c ∈ l := by
  obtain ⟨hi, hc⟩ := List.getElem?_eq_some.mp h
  rw [← hc]
  exact List.getElem_mem hi

theorem returnBookToLibrary_idem (c : Book) :
    returnBookToLibrary (returnBookToLibrary c) = returnBookToLibrary c := by
  obtain ⟨t, d, l, r, k⟩ := c
  cases l <;> simp [returnBookToLibrary]

theorem returnByTitle_eq_map (t : String) (books : List Book)
    (h : (books.map Book.title).Nodup) :
    returnByTitle t books =
      books.map (fun c => if c.title = t then returnBookToLibrary c else c) := by
  induction books with
  | nil => rfl
  | cons c cs ih =>
    simp only [List.map_cons, List.nodup_cons] at h
    simp only [returnByTitle, List.map_cons]
    by_cases hc : c.title = t
    · simp only [if_pos hc]
      congr 1
      symm
      apply map_eq_self
      intro x hx
      have hne : ¬ x.title = t := by
        intro hxt
        exact h.1 (List.mem_map.mpr ⟨x, hx, by rw [hxt, hc]⟩)
      simp only [if_neg hne]
    · simp only [if_neg hc, ih h.2]

theorem returnAll_eq_map (ts : List String) (books : List Book)
    (h : (books.map Book.title).Nodup) :
    returnAll ts books =
      books.map (fun c => if c.title ∈ ts then returnBookToLibrary c else c) := by
  induction ts generalizing books with
  | nil => simp [returnAll]
  | cons t ts ih =>
    have h' : ((returnByTitle t books).map Book.title).Nodup := by
      rw [returnByTitle_titles]; exact h
    rw [returnAll, ih _ h', returnByTitle_eq_map t books h, List.map_map]
    apply List.map_congr_left
    intro c _
    simp only [Function.comp]
    by_cases hc : c.title = t
    · simp only [if_pos hc, returnBookToLibrary_title, returnBookToLibrary_idem, ite_self,
        List.mem_cons, hc, true_or, if_true]
    · have hc' : ¬ t = c.title := fun e => hc e.symm
      simp only [if_neg hc, List.mem_cons, hc, false_or]
      simp only [if_false]

theorem set_eq_map {α β : Type} (f : α → β) [DecidableEq β] (l : List α) (i : Nat) (c x : α)
    (h : (l.map f).Nodup) (hc : l[i]? = some c) :
    l.set i x = l.map (fun y => if f y = f c then x else y) := by
  induction l generalizing i with
  | nil => simp
  | cons a as ih =>
    simp only [List.map_cons, List.nodup_cons] at h
    cases i with
    | zero =>
      have hac : a = c := by simpa using hc
      subst hac
      simp only [List.set_cons_zero, List.map_cons, if_true]
      congr 1
      symm
      apply map_eq_self
      intro y hy
      have hne : ¬ f y = f a := fun e => h.1 (List.mem_map.mpr ⟨y, hy, e⟩)
      simp only [if_neg hne]
    | succ i =>
      have hc' : as[i]? = some c := by simpa using hc
      have hne : ¬ f a = f c := fun e =>
        h.1 (List.mem_map.mpr ⟨c, mem_of_getElem? as i c hc', e.symm⟩)
      simp only [List.set_cons_succ, List.map_cons, if_neg hne, ih i h.2 hc']

theorem mem_loansOf (b : Book) (rs : List Reader) :
    b ∈ loansOf rs ↔ ∃ r ∈ rs, b ∈ r.takenBooks := by
  induction rs with
  | nil => simp [loansOf]
  | cons r rs ih => simp [loansOf, ih]

/-! ## Consistency along a run -/

theorem consistent_initLibrary (rng : Rng) : Consistent (initLibrary rng) where
  titles_nodup := by
    simp only [initLibrary, List.map]
    decide
  loans_nodup := by simp [initLibrary, Library.loans, loansOf]
  loan_mem := by simp [initLibrary, Library.loans, loansOf]
  taken := by
    intro c hc ht
    simp only [initLibrary, List.mem_cons, List.mem_singleton, List.not_mem_nil,
      or_false] at hc
    rcases hc with rfl | rfl | rfl | rfl | rfl <;> simp at ht
  lost_taken := by
    intro c hc hl
    simp only [initLibrary, List.mem_cons, List.mem_singleton, List.not_mem_nil,
      or_false] at hc
    rcases hc with rfl | rfl | rfl | rfl | rfl <;> simp at hl
  ledger := by simp [initLibrary]

theorem consistent_arrival (day : Int) (s : Library) (h : Consistent s) :
    Consistent (arrival day s) := by
  rcases arrival_cases day s with ⟨e, _⟩ | ⟨i, c, reader, rng, _, hc, hct, hrd, e⟩
  · rw [e]
    exact ⟨h.titles_nodup, h.loans_nodup, h.loan_mem, h.taken, h.lost_taken, h.ledger⟩
  · obtain ⟨htitle, htaken, _, htb⟩ := giveBookToReader_book reader c day rng hct
    have hcm : c ∈ s.libraryBooks := mem_of_getElem? _ i c hc
    have hinj := List.inj_on_of_nodup_map h.titles_nodup
    -- no loan carries the title of the untaken book
    have hfresh : ∀ b ∈ s.loans, b.title ≠ c.title := by
      intro b hb hbt
      have hbc : b = c := hinj (h.loan_mem b hb).1 hcm hbt
      have := (h.loan_mem b hb).2
      rw [hbc, hct] at this
      exact Bool.noConfusion this
    have hloans : (arrival day s).loans =
        s.loans ++ [(giveBookToReader reader c day rng).book] := by
      rw [e]
      simp [Library.loans, loansOf_append, loansOf, htb, hrd]
    have hbooks : (arrival day s).libraryBooks =
        s.libraryBooks.map
          (fun y => if y.title = c.title then (giveBookToReader reader c day rng).book
            else y) := by
      rw [e]
      exact set_eq_map Book.title _ i c _ h.titles_nodup hc
    have hlost : (arrival day s).lostBooks = s.lostBooks := arrival_lostBooks day s
    refine ⟨?_, ?_, ?_, ?_, ?_, ?_⟩
    · rw [arrival_titles]; exact h.titles_nodup
    · rw [hloans, List.map_append, List.nodup_append]
      refine ⟨h.loans_nodup, by simp, ?_⟩
      intro t ht1 ht2
      obtain ⟨b, hb, hbt⟩ := List.mem_map.mp ht1
      simp only [List.map_cons, List.map_nil, List.mem_singleton] at ht2
      exact hfresh b hb (by rw [hbt, ht2, htitle])
    · intro b hb
      rw [hloans] at hb
      rw [hbooks]
      rcases List.mem_append.mp hb with hb | hb
      · refine ⟨List.mem_map.mpr ⟨b, (h.loan_mem b hb).1, ?_⟩, (h.loan_mem b hb).2⟩
        simp only [if_neg (hfresh b hb)]
      · rw [List.mem_singleton.mp hb]
        refine ⟨List.mem_map.mpr ⟨c, hcm, ?_⟩, htaken⟩
        simp only [if_true]
    · intro x hx hxt
      rw [hbooks] at hx
      rw [hloans]
      obtain ⟨y, hy, hyx⟩ := List.mem_map.mp hx
      by_cases hyt : y.title = c.title
      · simp only [if_pos hyt] at hyx
        left
        rw [← hyx]
        exact List.mem_append_right _ (List.mem_singleton_self _)
      · simp only [if_neg hyt] at hyx
        subst hyx
        rcases h.taken y hy hxt with h1 | h1
        · exact Or.inl (List.mem_append_left _ h1)
        · exact Or.inr h1
    · intro x hx hxl
      rw [hbooks] at hx
      obtain ⟨y, hy, hyx⟩ := List.mem_map.mp hx
      by_cases hyt : y.title = c.title
      · simp only [if_pos hyt] at hyx
        rw [← hyx]; exact htaken
      · simp only [if_neg hyt] at hyx
        subst hyx
        exact h.lost_taken y hy hxl
    · intro l hl
      rw [hlost] at hl
      obtain ⟨⟨c0, hc0, hc0t, hc0l⟩, hnot⟩ := h.ledger l hl
      have hne : ¬ c0.title = c.title := by
        intro e0
        have : c0 = c := hinj hc0 hcm e0
        have h2 := h.lost_taken c0 hc0 hc0l
        rw [this, hct] at h2
        exact Bool.noConfusion h2
      refine ⟨⟨c0, ?_, hc0t, hc0l⟩, ?_⟩
      · rw [hbooks]
        exact List.mem_map.mpr ⟨c0, hc0, by simp only [if_neg hne]⟩
      · rw [hloans, List.map_append, List.mem_append]
        rintro (h1 | h1)
        · exact hnot h1
        · simp only [List.map_cons, List.map_nil, List.mem_singleton] at h1
          exact hne (by rw [hc0t, h1, htitle])

theorem consistent_resolution (day : Int) (s : Library) (h : Consistent s) :
    Consistent (resolution day s) := by
  have hinjL := List.inj_on_of_nodup_map h.titles_nodup
  have hinjR := List.inj_on_of_nodup_map h.loans_nodup
  have hbooks : (resolution day s).libraryBooks =
      s.libraryBooks.map (fun c =>
        if c.title ∈ (s.loans.filter (fun b => overdue day b && !b.isLost)).map Book.title
        then returnBookToLibrary c else c) := by
    rw [resolution_libraryBooks]
    exact returnAll_eq_map _ _ h.titles_nodup
  have hloans := resolution_loans day s
  have hlost := resolution_lostBooks day s
  -- a loan is returned exactly when it is overdue and not lost
  have hret : ∀ b ∈ s.loans,
      b.title ∈ (s.loans.filter (fun b => overdue day b && !b.isLost)).map Book.title →
      overdue day b = true ∧ b.isLost = false := by
    intro b hb hbt
    obtain ⟨r, hr, hrt⟩ := List.mem_map.mp hbt
    obtain ⟨hr1, hr2⟩ := List.mem_filter.mp hr
    have : r = b := hinjR hr1 hb hrt
    subst this
    simpa using hr2
  -- a catalog book whose title is returned is such a loan
  have hretL : ∀ c ∈ s.libraryBooks,
      c.title ∈ (s.loans.filter (fun b => overdue day b && !b.isLost)).map Book.title →
      c ∈ s.loans ∧ overdue day c = true ∧ c.isLost = false := by
    intro c hc hct
    obtain ⟨r, hr, hrt⟩ := List.mem_map.mp hct
    obtain ⟨hr1, hr2⟩ := List.mem_filter.mp hr
    have : r = c := hinjL (h.loan_mem r hr1).1 hc hrt
    subst this
    exact ⟨hr1, by simpa using hr2⟩
  have hsub : ∀ t, t ∈ (resolution day s).loans.map Book.title → t ∈ s.loans.map Book.title := by
    intro t ht
    rw [hloans] at ht
    obtain ⟨b, hb, hbt⟩ := List.mem_map.mp ht
    exact List.mem_map.mpr ⟨b, (List.mem_filter.mp hb).1, hbt⟩
  refine ⟨?_, ?_, ?_, ?_, ?_, ?_⟩
  · rw [resolution_libraryBooks, returnAll_titles]; exact h.titles_nodup
  · rw [hloans]
    exact h.loans_nodup.sublist ((List.filter_sublist _).map _)
  · intro b hb
    rw [hloans] at hb
    obtain ⟨hb1, hb2⟩ := List.mem_filter.mp hb
    refine ⟨?_, (h.loan_mem b hb1).2⟩
    rw [hbooks]
    refine List.mem_map.mpr ⟨b, (h.loan_mem b hb1).1, ?_⟩
    have hnot : ¬ b.title ∈
        (s.loans.filter (fun b => overdue day b && !b.isLost)).map Book.title := by
      intro hbt
      have := (hret b hb1 hbt).1
      simp [this] at hb2
    simp only [if_neg hnot]
  · intro x hx hxt
    rw [hbooks] at hx
    obtain ⟨y, hy, hyx⟩ := List.mem_map.mp hx
    by_cases hyt : y.title ∈
        (s.loans.filter (fun b => overdue day b && !b.isLost)).map Book.title
    · simp only [if_pos hyt] at hyx
      rw [← hyx, returnBookToLibrary_isTaken] at hxt
      exact Bool.noConfusion hxt
    · simp only [if_neg hyt] at hyx
      subst hyx
      rcases h.taken y hy hxt with h1 | h1
      · by_cases ho : overdue day y = true
        · cases hyl : y.isLost
          · exact absurd (List.mem_map.mpr
              ⟨y, List.mem_filter.mpr ⟨h1, by simp [ho, hyl]⟩, rfl⟩) hyt
          · exact Or.inr rfl
        · left
          rw [hloans]
          exact List.mem_filter.mpr ⟨h1, by simpa using ho⟩
      · exact Or.inr h1
  · intro x hx hxl
    rw [hbooks] at hx
    obtain ⟨y, hy, hyx⟩ := List.mem_map.mp hx
    by_cases hyt : y.title ∈
        (s.loans.filter (fun b => overdue day b && !b.isLost)).map Book.title
    · simp only [if_pos hyt] at hyx
      rw [← hyx, returnBookToLibrary_isLost, (hretL y hy hyt).2.2] at hxl
      exact Bool.noConfusion hxl
    · simp only [if_neg hyt] at hyx
      subst hyx
      exact h.lost_taken y hy hxl
  · intro l hl
    rw [hlost] at hl
    rcases List.mem_append.mp hl with hl | hl
    · obtain ⟨⟨c0, hc0, hc0t, hc0l⟩, hnot⟩ := h.ledger l hl
      refine ⟨⟨c0, ?_, hc0t, hc0l⟩, fun hm => hnot (hsub _ hm)⟩
      rw [hbooks]
      refine List.mem_map.mpr ⟨c0, hc0, ?_⟩
      have hn : ¬ c0.title ∈
          (s.loans.filter (fun b => overdue day b && !b.isLost)).map Book.title := by
        intro hm
        have := (hretL c0 hc0 hm).2.2
        rw [hc0l] at this
        exact Bool.noConfusion this
      simp only [if_neg hn]
    · obtain ⟨hl1, hl2⟩ := List.mem_filter.mp hl
      simp only [Bool.and_eq_true, decide_eq_true_eq] at hl2
      refine ⟨⟨l, ?_, rfl, hl2.1⟩, ?_⟩
      · rw [hbooks]
        refine List.mem_map.mpr ⟨l, (h.loan_mem l hl1).1, ?_⟩
        have hn : ¬ l.title ∈
            (s.loans.filter (fun b => overdue day b && !b.isLost)).map Book.title := by
          intro hm
          have := (hret l hl1 hm).2
          rw [hl2.1] at this
          exact Bool.noConfusion this
        simp only [if_neg hn]
      · intro hm
        rw [hloans] at hm
        obtain ⟨b, hb, hbt⟩ := List.mem_map.mp hm
        obtain ⟨hb1, hb2⟩ := List.mem_filter.mp hb
        have : b = l := hinjR hb1 hl1 hbt
        subst this
        have hov : day > b.returnDay := by omega
        simp [overdue, hov] at hb2

theorem consistent_processDay (day : Int) (s : Library) (h : Consistent s) :
    Consistent (processDay day s) :=
  consistent_resolution day _ (consistent_arrival day s h)

theorem consistent_simulate (rng : Rng) (n : Nat) : Consistent (simulate rng n) := by
  induction n with
  | zero => exact consistent_initLibrary rng
  | succ n ih => exact consistent_processDay _ _ ih

/-! ## Runs of the simulation -/

theorem simulate_succ (rng : Rng) (n : Nat) :
    simulate rng (n + 1) = processDay ((n : Int) + 1) (simulate rng n) := rfl

theorem simulate_lostBooks_succ (rng : Rng) (n : Nat) :
    (simulate rng (n + 1)).lostBooks =
      (simulate rng n).lostBooks ++
        (simulate rng n).loans.filter
          (fun b => b.isLost && decide (b.returnDay + 1 = (n : Int) + 1)) := by
  rw [simulate_succ, processDay_lostBooks_before]

theorem simulate_loans_returnDay (rng : Rng) (n : Nat) :
    ∀ b ∈ (simulate rng n).loans, (n : Int) ≤ b.returnDay := by
  cases n with
  | zero => simp [simulate, initLibrary, Library.loans, loansOf]
  | succ n =>
    intro b hb
    obtain ⟨extra, hl, hx⟩ := processDay_loans ((n : Int) + 1) (simulate rng n)
    rw [simulate_succ, hl] at hb
    rcases List.mem_append.mp hb with hb | hb
    · have := (List.mem_filter.mp hb).2
      simp only [overdue, Bool.not_eq_true', decide_eq_false_iff_not] at this
      push_cast
      omega
    · have := hx b hb
      push_cast
      omega

theorem simulate_lostBooks_returnDay (rng : Rng) (n : Nat) :
    ∀ l ∈ (simulate rng n).lostBooks, l.returnDay < (n : Int) := by
  induction n with
  | zero => simp [simulate, initLibrary]
  | succ n ih =>
    intro l hl
    rw [simulate_lostBooks_succ] at hl
    push_cast
    rcases List.mem_append.mp hl with hl | hl
    · have := ih l hl
      omega
    · have := (List.mem_filter.mp hl).2
      simp only [Bool.and_eq_true, decide_eq_true_eq] at this
      omega

theorem simulate_lostBooks_mono (rng : Rng) (n m : Nat) (h : n ≤ m) :
    ∀ l ∈ (simulate rng n).lostBooks, l ∈ (simulate rng m).lostBooks := by
  induction m with
  | zero =>
    have : n = 0 := by omega
    subst this
    exact fun l hl => hl
  | succ m ih =>
    intro l hl
    by_cases hn : n = m + 1
    · subst hn; exact hl
    · rw [simulate_lostBooks_succ]
      exact List.mem_append_left _ (ih (by omega) l hl)

theorem simulate_loan_stays (rng : Rng) (n : Nat) (b : Book)
    (hb : b ∈ (simulate rng n).loans) (hd : (n : Int) + 1 ≤ b.returnDay) :
    b ∈ (simulate rng (n + 1)).loans := by
  obtain ⟨extra, hl, _⟩ := processDay_loans ((n : Int) + 1) (simulate rng n)
  rw [simulate_succ, hl]
  apply List.mem_append_left
  refine List.mem_filter.mpr ⟨hb, ?_⟩
  simp only [overdue, Bool.not_eq_true', decide_eq_false_iff_not]
  omega

theorem simulate_loan_held (rng : Rng) (m : Nat) (b : Book)
    (hb : b ∈ (simulate rng m).loans) (j : Nat) (hmj : m ≤ j)
    (hj : (j : Int) ≤ b.returnDay) : b ∈ (simulate rng j).loans := by
  induction j with
  | zero =>
    have : m = 0 := by omega
    subst this
    exact hb
  | succ j ih =>
    by_cases hm : m = j + 1
    · subst hm; exact hb
    · apply simulate_loan_stays rng j b (ih (by omega) (by push_cast at hj; omega))
      push_cast at hj
      exact hj

theorem simulate_loans_nodup (rng : Rng) (n : Nat) : (simulate rng n).loans.Nodup :=
  List.Nodup.of_map _ (consistent_simulate rng n).loans_nodup

/-- The number of times a lost loan stands in the lost ledger after `e` days. -/
theorem simulate_lost_count (rng : Rng) (m : Nat) (b : Book)
    (hb : b ∈ (simulate rng m).loans) (hl : b.isLost = true) (e : Nat) :
    (simulate rng e).lostBooks.count b = if b.returnDay < (e : Int) then 1 else 0 := by
  have hm := simulate_loans_returnDay rng m b hb
  induction e with
  | zero =>
    have : ¬ b.returnDay < ((0 : Nat) : Int) := by push_cast; omega
    rw [if_neg this]
    simp [simulate, initLibrary]
  | succ e ih =>
    rw [simulate_lostBooks_succ, List.count_append, ih]
    by_cases h1 : b.returnDay < (e : Int)
    · have h2 : b.returnDay < ((e + 1 : Nat) : Int) := by push_cast; omega
      have hp : (fun b : Book => b.isLost && decide (b.returnDay + 1 = (e : Int) + 1)) b
          = false := by
        have : ¬ b.returnDay + 1 = (e : Int) + 1 := by omega
        simp [this]
      rw [if_pos h1, if_pos h2, count_filter_of_neg _ b _ hp]
    · by_cases h3 : b.returnDay = (e : Int)
      · have h2 : b.returnDay < ((e + 1 : Nat) : Int) := by push_cast; omega
        have hp : (fun b : Book => b.isLost && decide (b.returnDay + 1 = (e : Int) + 1)) b
            = true := by
          simp [hl, h3]
        have hheld : b ∈ (simulate rng e).loans :=
          simulate_loan_held rng m b hb e (by omega) (by omega)
        rw [if_neg h1, if_pos h2, count_filter_of_pos _ b _ hp,
          List.count_eq_one_of_mem (simulate_loans_nodup rng e) hheld]
      · have h2 : ¬ b.returnDay < ((e + 1 : Nat) : Int) := by push_cast; omega
        have hp : (fun b : Book => b.isLost && decide (b.returnDay + 1 = (e : Int) + 1)) b
            = false := by
          have : ¬ b.returnDay + 1 = (e : Int) + 1 := by omega
          simp [this]
        rw [if_neg h1, if_neg h2, count_filter_of_neg _ b _ hp]

/-! ## Runs of the simulation: the claims -/

/-- A loan held at the return processing of day `m + 1`, be it issued that day
or held before, is held at the end of day `m` or at the end of day `m + 1`. -/
theorem held_at_end_of_day (rng : Rng) (m : Nat) (b : Book)
    (hb : b ∈ (arrival ((m : Int) + 1) (simulate rng m)).loans) :
    b ∈ (simulate rng m).loans ∨ b ∈ (simulate rng (m + 1)).loans := by
  obtain ⟨extra, hl, hx⟩ := arrival_loans ((m : Int) + 1) (simulate rng m)
  rw [hl] at hb
  rcases List.mem_append.mp hb with h1 | h1
  · exact Or.inl h1
  · right
    rw [simulate_succ, processDay, resolution_loans, hl]
    refine List.mem_filter.mpr ⟨List.mem_append_right _ h1, ?_⟩
    have := hx b h1
    simp only [overdue, Bool.not_eq_true', decide_eq_false_iff_not]
    omega

/-- C5: in every run from `initLibrary` over the consecutive days 1, 2, ...,
every loan with `isLost = true` that is held at the return processing of some
day (the day it is issued, or any later day it is still with its reader) is
appended to the lost ledger exactly once, on day `returnDay + 1` and on no
other day: the entries appended on day `e + 1` contain it once when
`e + 1 = returnDay + 1` and not at all otherwise, so after `N` days with
`returnDay < N` it stands in the ledger exactly once, and before that not at
all. A lost loan that leaves its reader is recorded on that very day. -/
theorem lost_loan_recorded_once (rng : Rng) (m : Nat) (b : Book)
    (hb : b ∈ (arrival ((m : Int) + 1) (simulate rng m)).loans) (hl : b.isLost = true) :
    (∀ e : Nat, ∃ added : List Book,
      (simulate rng (e + 1)).lostBooks = (simulate rng e).lostBooks ++ added ∧
      added.count b = if (e : Int) + 1 = b.returnDay + 1 then 1 else 0) ∧
    (∀ N : Nat,
      (simulate rng N).lostBooks.count b = if b.returnDay < (N : Int) then 1 else 0) ∧
    (b ∉ (simulate rng (m + 1)).loans →
      (m : Int) + 1 = b.returnDay + 1 ∧ b ∈ (simulate rng (m + 1)).lostBooks) := by
  have hcount : ∀ N : Nat,
      (simulate rng N).lostBooks.count b = if b.returnDay < (N : Int) then 1 else 0 := by
    rcases held_at_end_of_day rng m b hb with h1 | h1
    · exact simulate_lost_count rng m b h1 hl
    · exact simulate_lost_count rng (m + 1) b h1 hl
  refine ⟨?_, hcount, ?_⟩
  · intro e
    refine ⟨_, simulate_lostBooks_succ rng e, ?_⟩
    have h1 := hcount (e + 1)
    rw [simulate_lostBooks_succ, List.count_append, hcount e] at h1
    push_cast at h1
    split_ifs at h1 ⊢ <;> omega
  · intro hgone
    have hheld : b ∈ (simulate rng m).loans := by
      rcases held_at_end_of_day rng m b hb with h1 | h1
      · exact h1
      · exact absurd h1 hgone
    have hge := simulate_loans_returnDay rng m b hheld
    have hlt : ¬ (m : Int) + 1 ≤ b.returnDay := fun h =>
      hgone (simulate_loan_stays rng m b hheld h)
    refine ⟨by omega, ?_⟩
    apply List.count_pos_iff.mp
    rw [hcount (m + 1)]
    have : b.returnDay < ((m + 1 : Nat) : Int) := by push_cast; omega
    rw [if_pos this]
    exact Nat.one_pos

/-- A run in which the loan issued on day 1 is lost and due on day 7: after
eight days it stands in the lost ledger once. -/
theorem lost_loan_recorded_once_witness :
    (simulate [0, 0, 0, 0, 0, 0, 99] 8).lostBooks.count
        { title := "Преступление и наказание", returnDay := 7, isLost := true,
          isTaken := true } =
      if (7 : Int) < ((8 : Nat) : Int) then 1 else 0 :=
  (lost_loan_recorded_once [0, 0, 0, 0, 0, 0, 99] 0
    { title := "Преступление и наказание", returnDay := 7, isLost := true, isTaken := true }
    (by decide) rfl).2.1 8

/-- C8: in every state reached from `initLibrary` by `processDay` on the
consecutive days 1, 2, ..., for every catalog book whose catalog copy is not
marked lost, `isTaken` is true if and only if some active reader holds a loan
with that title; and every catalog book whose copy is marked lost has
`isTaken = true`. -/
theorem simulate_isTaken_iff (rng : Rng) (n : Nat) (c : Book)
    (hc : c ∈ (simulate rng n).libraryBooks) :
    (c.isLost = false →
      (c.isTaken = true ↔
        ∃ r ∈ (simulate rng n).activeReaders, ∃ b ∈ r.takenBooks, b.title = c.title)) ∧
    (c.isLost = true → c.isTaken = true) := by
  have h := consistent_simulate rng n
  refine ⟨fun hnl => ⟨fun ht => ?_, fun hheld => ?_⟩, h.lost_taken c hc⟩
  · rcases h.taken c hc ht with h1 | h1
    · obtain ⟨r, hr, hb⟩ := (mem_loansOf c _).mp h1
      exact ⟨r, hr, c, hb, rfl⟩
    · rw [hnl] at h1
      exact Bool.noConfusion h1
  · obtain ⟨r, hr, b, hb, hbt⟩ := hheld
    have hbl : b ∈ (simulate rng n).loans := (mem_loansOf b _).mpr ⟨r, hr, hb⟩
    have hbc : b = c :=
      List.inj_on_of_nodup_map h.titles_nodup (h.loan_mem b hbl).1 hc hbt
    rw [← hbc]
    exact (h.loan_mem b hbl).2

/-- A run of eight days after which one book is on loan and not lost. -/
theorem simulate_isTaken_iff_witness :
    (Book.isLost { title := "Мастер и Маргарита", returnDay := 12, isTaken := true } = false →
      (Book.isTaken { title := "Мастер и Маргарита", returnDay := 12, isTaken := true } = true ↔
        ∃ r ∈ (simulate [0, 0, 0, 0, 0, 0, 99, 99, 99, 99, 99, 99, 99, 99, 99, 99]
            8).activeReaders,
          ∃ b ∈ r.takenBooks,
            b.title =
              Book.title { title := "Мастер и Маргарита", returnDay := 12, isTaken := true })) ∧
    (Book.isLost { title := "Мастер и Маргарита", returnDay := 12, isTaken := true } = true →
      Book.isTaken { title := "Мастер и Маргарита", returnDay := 12, isTaken := true } = true) :=
  simulate_isTaken_iff [0, 0, 0, 0, 0, 0, 99, 99, 99, 99, 99, 99, 99, 99, 99, 99] 8
    { title := "Мастер и Маргарита", returnDay := 12, isTaken := true } (by decide)

/-- C9: in every run from `initLibrary` over the consecutive days 1, 2, ...,
once an entry stands in the lost ledger (at the end of day `n`), then at the end
of that day and of every later day `m` the entry is still in the ledger, the
catalog has a book with that title, every catalog book with that title has
`isTaken = true`, and no reader holds a loan with that title, neither at the end
of day `m` nor at the return processing of day `m + 1`: the book is never
available and never issued again. -/
theorem lost_title_stays_taken (rng : Rng) (n m : Nat) (l : Book)
    (hl : l ∈ (simulate rng n).lostBooks) (hnm : n ≤ m) :
    l ∈ (simulate rng m).lostBooks ∧
    (∃ c ∈ (simulate rng m).libraryBooks, c.title = l.title) ∧
    (∀ c ∈ (simulate rng m).libraryBooks, c.title = l.title → c.isTaken = true) ∧
    (∀ b ∈ (simulate rng m).loans, b.title ≠ l.title) ∧
    (∀ b ∈ (arrival ((m : Int) + 1) (simulate rng m)).loans, b.title ≠ l.title) := by
  have h := consistent_simulate rng m
  have hlm := simulate_lostBooks_mono rng n m hnm l hl
  obtain ⟨⟨c0, hc0, hc0t, hc0l⟩, hnot⟩ := h.ledger l hlm
  refine ⟨hlm, ⟨c0, hc0, hc0t⟩, ?_, ?_, ?_⟩
  · intro c hc hct
    have : c = c0 :=
      List.inj_on_of_nodup_map h.titles_nodup hc hc0 (by rw [hct, hc0t])
    rw [this]
    exact h.lost_taken c0 hc0 hc0l
  · intro b hb hbt
    exact hnot (List.mem_map.mpr ⟨b, hb, hbt⟩)
  · have ha := consistent_arrival ((m : Int) + 1) _ h
    have hla : l ∈ (arrival ((m : Int) + 1) (simulate rng m)).lostBooks := by
      rw [arrival_lostBooks]; exact hlm
    intro b hb hbt
    exact (ha.ledger l hla).2 (List.mem_map.mpr ⟨b, hb, hbt⟩)

/-- A run in which the book issued on day 1 is recorded as lost on day 8: the
entry and the catalog book are still there after day 9. -/
theorem lost_title_stays_taken_witness :
    ({ title := "Преступление и наказание", returnDay := 7, isLost := true,
       isTaken := true } : Book) ∈ (simulate [0, 0, 0, 0, 0, 0, 99] 9).lostBooks ∧
    (∃ c ∈ (simulate [0, 0, 0, 0, 0, 0, 99] 9).libraryBooks,
      c.title = "Преступление и наказание") :=
  have h := lost_title_stays_taken [0, 0, 0, 0, 0, 0, 99] 8 9
    { title := "Преступление и наказание", returnDay := 7, isLost := true, isTaken := true }
    (by decide) (by decide)
  ⟨h.1, h.2.1⟩

/-! ## The reader profiles and the catalog -/

/-- C13: the three reader profiles return exactly
(`loseChance`, `lateChance`, `maxLateDays`) = Ordinary (5, 0, 0), Greedy
(10, 5, 0), Forgetful (5, 30, 3); for every profile both chances lie in 0..100,
`maxLateDays` is not negative, and `loseChance + lateChance <= 100`. -/
theorem readerType_profiles :
    (ReaderType.OrdinaryReader.loseChance = 5 ∧ ReaderType.OrdinaryReader.lateChance = 0 ∧
      ReaderType.OrdinaryReader.maxLateDays = 0) ∧
    (ReaderType.GreedyReader.loseChance = 10 ∧ ReaderType.GreedyReader.lateChance = 5 ∧
      ReaderType.GreedyReader.maxLateDays = 0) ∧
    (ReaderType.ForgetfulReader.loseChance = 5 ∧ ReaderType.ForgetfulReader.lateChance = 30 ∧
      ReaderType.ForgetfulReader.maxLateDays = 3) ∧
    (∀ t : ReaderType,
      (0 ≤ t.loseChance ∧ t.loseChance ≤ 100) ∧ (0 ≤ t.lateChance ∧ t.lateChance ≤ 100) ∧
      0 ≤ t.maxLateDays ∧ t.loseChance + t.lateChance ≤ 100) := by
  refine ⟨⟨rfl, rfl, rfl⟩, ⟨rfl, rfl, rfl⟩, ⟨rfl, rfl, rfl⟩, ?_⟩
  intro t
  cases t <;> decide

theorem resolution_titles (day : Int) (s : Library) :
    (resolution day s).libraryBooks.map Book.title = s.libraryBooks.map Book.title := by
  rw [resolution_libraryBooks, returnAll_titles]

/-- C14: `initLibrary` yields a catalog of exactly five books with pairwise
distinct titles, all untaken; and for every state and day `processDay` leaves
the sequence of the catalog titles, hence the length and the order of the
catalog, unchanged. -/
theorem catalog_fixed :
    (∀ rng : Rng,
      (initLibrary rng).libraryBooks.length = 5 ∧
      ((initLibrary rng).libraryBooks.map Book.title).Nodup ∧
      (initLibrary rng).libraryBooks.map Book.isTaken = [false, false, false, false, false]) ∧
    (∀ (day : Int) (s : Library),
      (processDay day s).libraryBooks.map Book.title = s.libraryBooks.map Book.title ∧
      (processDay day s).libraryBooks.length = s.libraryBooks.length) := by
  constructor
  · intro rng
    refine ⟨rfl, ?_, rfl⟩
    simp only [initLibrary, List.map]
    decide
  · intro day s
    have h : (processDay day s).libraryBooks.map Book.title = s.libraryBooks.map Book.title := by
      rw [processDay, resolution_titles, arrival_titles]
    refine ⟨h, ?_⟩
    have := congrArg List.length h
    simpa using this

/-- C16: for each of the three reader profiles, every untaken book, every day
and every state of the generator, `giveBookToReader` succeeds and appends to the
reader the updated book, whose `returnDay` is `currentDay` plus the draw of
`returnDays`, which lies in 6..10, plus, exactly when the loan is late and
`maxLateDays > 0` of the profile, the draw of `lateDays`, which then lies between
1 and `maxLateDays`; so
`currentDay + 6 <= returnDay <= currentDay + 10 + maxLateDays`, and `returnDay`
exceeds `currentDay + 10` only if the loan is late and `maxLateDays > 0`. -/
theorem giveBookToReader_returnDay (reader : Reader) (book : Book) (currentDay : Int)
    (rng : Rng) (h : book.isTaken = false) :
    (giveBookToReader reader book currentDay rng).ok = true ∧
    (giveBookToReader reader book currentDay rng).reader.takenBooks =
      reader.takenBooks ++ [(giveBookToReader reader book currentDay rng).book] ∧
    (giveBookToReader reader book currentDay rng).book.returnDay =
      currentDay + (returnDays (dist100 rng).2).1 +
        (if (giveBookToReader reader book currentDay rng).book.isReturnedLate = true ∧
              reader.maxLateDays > 0
          then (lateDays (returnDays (dist100 rng).2).2).1 else 0) ∧
    (6 ≤ (returnDays (dist100 rng).2).1 ∧ (returnDays (dist100 rng).2).1 ≤ 10) ∧
    ((giveBookToReader reader book currentDay rng).book.isReturnedLate = true ∧
        reader.maxLateDays > 0 →
      1 ≤ (lateDays (returnDays (dist100 rng).2).2).1 ∧
        (lateDays (returnDays (dist100 rng).2).2).1 ≤ reader.maxLateDays) ∧
    currentDay + 6 ≤ (giveBookToReader reader book currentDay rng).book.returnDay ∧
    (giveBookToReader reader book currentDay rng).book.returnDay
      ≤ currentDay + 10 + reader.maxLateDays ∧
    ((giveBookToReader reader book currentDay rng).book.returnDay > currentDay + 10 →
      (giveBookToReader reader book currentDay rng).book.isReturnedLate = true ∧
        reader.maxLateDays > 0) := by
  have hb := returnDays_range (dist100 rng).2
  have hl := lateDays_range (returnDays (dist100 rng).2).2
  have hmax : reader.maxLateDays = 0 ∨ reader.maxLateDays = 3 := by
    obtain ⟨type, name, held⟩ := reader
    cases type <;> simp [Reader.maxLateDays, ReaderType.maxLateDays]
  rw [giveBookToReader_spec reader book currentDay rng h]
  simp only [issuedBook]
  by_cases hc : issuedLate reader book rng = true ∧ reader.maxLateDays > 0
  · simp only [if_pos hc]
    have h3 : reader.maxLateDays = 3 := by omega
    exact ⟨trivial, trivial, trivial, hb, fun _ => ⟨hl.1, by omega⟩, by omega, by omega,
      fun _ => hc⟩
  · simp only [if_neg hc]
    refine ⟨trivial, trivial, trivial, hb, fun hc' => absurd hc' hc, by omega, by omega, ?_⟩
    intro hgt
    omega

/-- A forgetful reader drawing a late loan on day 4, with 8 from `returnDays`
and 2 from `lateDays`: the loan appended is due on day 14 = 4 + 8 + 2. -/
theorem giveBookToReader_returnDay_witness :
    (giveBookToReader { type := .ForgetfulReader, name := "f", takenBooks := [] }
        { title := "1984" } 4 [19, 2, 1]).reader.takenBooks
      = [{ title := "1984", returnDay := 14, isLost := false, isReturnedLate := true,
           isTaken := true }] ∧
    (giveBookToReader { type := .ForgetfulReader, name := "f", takenBooks := [] }
        { title := "1984" } 4 [19, 2, 1]).book.returnDay =
      4 + (returnDays (dist100 [19, 2, 1]).2).1 +
        (if (giveBookToReader { type := .ForgetfulReader, name := "f", takenBooks := [] }
                { title := "1984" } 4 [19, 2, 1]).book.isReturnedLate = true ∧
              Reader.maxLateDays { type := .ForgetfulReader, name := "f", takenBooks := [] } > 0
          then (lateDays (returnDays (dist100 [19, 2, 1]).2).2).1 else 0) ∧
    (1 : Int) ≤ (lateDays (returnDays (dist100 [19, 2, 1]).2).2).1 ∧
    (lateDays (returnDays (dist100 [19, 2, 1]).2).2).1
      ≤ Reader.maxLateDays { type := .ForgetfulReader, name := "f", takenBooks := [] } :=
  have h := giveBookToReader_returnDay
    { type := .ForgetfulReader, name := "f", takenBooks := [] } { title := "1984" } 4
    [19, 2, 1] rfl
  ⟨by decide, h.2.2.1, h.2.2.2.2.1 (by decide)⟩

/-! ## The readers after the return processing -/

theorem filter_not_overdue (day : Int) (bs : List Book) :
    bs.filter (fun b => !overdue day b) = bs.filter (fun b => decide (b.returnDay ≥ day)) := by
  apply List.filter_congr
  intro b _
  by_cases h : day > b.returnDay
  · have h' : ¬ b.returnDay ≥ day := by omega
    simp [overdue, h, h']
  · have h' : b.returnDay ≥ day := by omega
    simp [overdue, h, h']

/-- The outer loop in closed form: the readers that stay. -/
theorem processReaders_fst (day : Int) (rs : List Reader) (s : Library) :
    (processReaders day rs s).1 = survivors day rs := by
  induction rs generalizing s with
  | nil => rfl
  | cons r rs ih =>
    simp only [processReaders, processBooks_fst, filter_not_overdue, ih]
    by_cases he : (r.takenBooks.filter (fun b => decide (b.returnDay ≥ day))).isEmpty = true
    · simp [survivors, keepLoans, he]
    · simp [survivors, keepLoans, he]

theorem resolution_activeReaders (day : Int) (s : Library) :
    (resolution day s).activeReaders = survivors day s.activeReaders := by
  simp only [resolution, processReaders_fst]

theorem survivors_append (day : Int) (rs qs : List Reader) :
    survivors day (rs ++ qs) = survivors day rs ++ survivors day qs := by
  simp [survivors]

theorem survivors_length_le (day : Int) (rs : List Reader) :
    (survivors day rs).length ≤ rs.length := by
  have := List.length_filter_le (fun r : Reader => !r.takenBooks.isEmpty)
    (rs.map (keepLoans day))
  simpa [survivors] using this

/-- C17: for every state and day, the return processing of `processDay` acts as
a filter: the active readers afterwards are the readers held at the return
processing, in their order, each with exactly its loans with `returnDay >= day`,
unchanged and in their order, without the readers left with no loan. So no
overdue loan remains, and a loan that is not overdue stays, unchanged, with its
reader. -/
theorem processDay_activeReaders (day : Int) (s : Library) :
    (processDay day s).activeReaders =
      (((arrival day s).activeReaders.map
          (fun r => { r with
            takenBooks := r.takenBooks.filter (fun b => decide (b.returnDay ≥ day)) })).filter
        (fun r => !r.takenBooks.isEmpty)) ∧
    (∀ r ∈ (processDay day s).activeReaders, ∀ b ∈ r.takenBooks, day ≤ b.returnDay) ∧
    (∀ r ∈ (arrival day s).activeReaders, ∀ b ∈ r.takenBooks, day ≤ b.returnDay →
      ∃ q ∈ (processDay day s).activeReaders,
        q.type = r.type ∧ q.name = r.name ∧ b ∈ q.takenBooks ∧
        q.takenBooks = r.takenBooks.filter (fun b => decide (b.returnDay ≥ day))) := by
  have h : (processDay day s).activeReaders = survivors day (arrival day s).activeReaders := by
    rw [processDay, resolution_activeReaders]
  refine ⟨h, ?_, ?_⟩
  · intro r hr b hb
    rw [h] at hr
    obtain ⟨q, _, hq⟩ := List.mem_map.mp (List.mem_filter.mp hr).1
    rw [← hq] at hb
    have := (List.mem_filter.mp hb).2
    simpa using this
  · intro r hr b hb hd
    have hmem : b ∈ (keepLoans day r).takenBooks :=
      List.mem_filter.mpr ⟨hb, by simpa using hd⟩
    refine ⟨keepLoans day r, ?_, rfl, rfl, hmem, rfl⟩
    rw [h]
    refine List.mem_filter.mpr ⟨List.mem_map.mpr ⟨r, hr, rfl⟩, ?_⟩
    cases hk : (keepLoans day r).takenBooks with
    | nil => rw [hk] at hmem; exact absurd hmem (List.not_mem_nil b)
    | cons x xs => rfl

/-- A reader holding a loan due on day 8 and one due on day 12: after day 9 only
the second is left. -/
theorem processDay_activeReaders_witness :
    ∃ q ∈ (processDay 9
        { activeReaders :=
            [{ type := .GreedyReader, name := "g",
               takenBooks := [{ title := "A", returnDay := 8, isTaken := true },
                              { title := "B", returnDay := 12, isTaken := true }] }],
          rng := [99] }).activeReaders,
      q.type = .GreedyReader ∧ q.name = "g" ∧
      ({ title := "B", returnDay := 12, isTaken := true } : Book) ∈ q.takenBooks ∧
      q.takenBooks =
        [{ title := "A", returnDay := 8, isTaken := true },
         { title := "B", returnDay := 12, isTaken := true }].filter
          (fun b => decide (b.returnDay ≥ 9)) :=
  (processDay_activeReaders 9
    { activeReaders :=
        [{ type := .GreedyReader, name := "g",
           takenBooks := [{ title := "A", returnDay := 8, isTaken := true },
                          { title := "B", returnDay := 12, isTaken := true }] }],
      rng := [99] }).2.2
    { type := .GreedyReader, name := "g",
      takenBooks := [{ title := "A", returnDay := 8, isTaken := true },
                     { title := "B", returnDay := 12, isTaken := true }] }
    (by decide)
    { title := "B", returnDay := 12, isTaken := true } (by decide) (by decide)

/-! ## Days without an arrival -/

theorem arrival_eq_of_none (day : Int) (s : Library)
    (h : (dist100 s.rng).1 > 50 ∨ ∀ b ∈ s.libraryBooks, b.isTaken = true) :
    arrival day s = { s with rng := (dist100 s.rng).2 } := by
  rcases arrival_cases day s with ⟨e, _⟩ | ⟨i, c, reader, rng, hd, hc, hct, _, _⟩
  · exact e
  · rcases h with h | h
    · omega
    · have := h c (mem_of_getElem? _ i c hc)
      rw [hct] at this
      exact Bool.noConfusion this

theorem returnByTitle_getElem?_taken (t : String) (books : List Book) (i : Nat) (c : Book)
    (h : (returnByTitle t books)[i]? = some c) (hc : c.isTaken = true) :
    books[i]? = some c := by
  induction books generalizing i with
  | nil => simp [returnByTitle] at h
  | cons x xs ih =>
    simp only [returnByTitle] at h
    split at h
    · cases i with
      | zero =>
        have e : returnBookToLibrary x = c := by simpa using h
        rw [← e, returnBookToLibrary_isTaken] at hc
        exact Bool.noConfusion hc
      | succ i => simpa using h
    · cases i with
      | zero => simpa using h
      | succ i =>
        have : (returnByTitle t xs)[i]? = some c := by simpa using h
        simpa using ih i this

theorem returnAll_getElem?_taken (ts : List String) (books : List Book) (i : Nat) (c : Book)
    (h : (returnAll ts books)[i]? = some c) (hc : c.isTaken = true) :
    books[i]? = some c := by
  induction ts generalizing books with
  | nil => exact h
  | cons t ts ih =>
    exact returnByTitle_getElem?_taken t books i c (ih _ h) hc

/-- C12: for every state and day, if the arrival draw is greater than 50 or
every catalog book has `isTaken = true` at the start of `processDay`, then no
reader is added: the active readers after the call are exactly the earlier
readers that survive the return processing (each with its loans that are not
overdue), so their number does not increase, and every catalog book that is
taken afterwards is, unchanged, the book at the same place before. -/
theorem processDay_no_arrival (day : Int) (s : Library)
    (h : (dist100 s.rng).1 > 50 ∨ ∀ b ∈ s.libraryBooks, b.isTaken = true) :
    (processDay day s).activeReaders =
      ((s.activeReaders.map
          (fun r => { r with
            takenBooks := r.takenBooks.filter (fun b => decide (b.returnDay ≥ day)) })).filter
        (fun r => !r.takenBooks.isEmpty)) ∧
    (processDay day s).activeReaders.length ≤ s.activeReaders.length ∧
    (∀ (i : Nat) (c : Book), (processDay day s).libraryBooks[i]? = some c →
      c.isTaken = true → s.libraryBooks[i]? = some c) := by
  have ha := arrival_eq_of_none day s h
  have hr : (processDay day s).activeReaders = survivors day s.activeReaders := by
    rw [processDay, resolution_activeReaders, ha]
  refine ⟨hr, ?_, ?_⟩
  · rw [hr]
    exact survivors_length_le day _
  · intro i c hi hc
    rw [processDay, resolution_libraryBooks, ha] at hi
    exact returnAll_getElem?_taken _ _ i c hi hc

/-- A day on which the arrival draw is 100: the one reader stays, nobody is
added. -/
theorem processDay_no_arrival_witness :
    (processDay 3
        { libraryBooks := [{ title := "A", returnDay := 8, isTaken := true },
                           { title := "B" }],
          activeReaders :=
            [{ type := .OrdinaryReader, name := "r",
               takenBooks := [{ title := "A", returnDay := 8, isTaken := true }] }],
          rng := [99] }).activeReaders.length
      ≤ [({ type := .OrdinaryReader, name := "r",
            takenBooks := [{ title := "A", returnDay := 8, isTaken := true }] } : Reader)].length :=
  (processDay_no_arrival 3
    { libraryBooks := [{ title := "A", returnDay := 8, isTaken := true }, { title := "B" }],
      activeReaders :=
        [{ type := .OrdinaryReader, name := "r",
           takenBooks := [{ title := "A", returnDay := 8, isTaken := true }] }],
      rng := [99] }
    (Or.inl (by decide))).2.1

/-! ## Days with an arrival -/

theorem arrival_eq_of_some (day : Int) (s : Library) (hd : (dist100 s.rng).1 ≤ 50)
    (hu : ∃ b ∈ s.libraryBooks, b.isTaken = false) :
    ∃ i c reader rng,
      s.libraryBooks[i]? = some c ∧ c.isTaken = false ∧ reader.takenBooks = [] ∧
      arrival day s =
        { s with
          libraryBooks := s.libraryBooks.set i (giveBookToReader reader c day rng).book,
          activeReaders := s.activeReaders ++ [(giveBookToReader reader c day rng).reader],
          rng := (giveBookToReader reader c day rng).rng } := by
  rcases arrival_cases day s with ⟨_, h⟩ | ⟨i, c, reader, rng, _, hc, hct, hr, e⟩
  · rcases h with h | h
    · omega
    · obtain ⟨b, hb, hbt⟩ := hu
      rw [h b hb] at hbt
      exact Bool.noConfusion hbt
  · exact ⟨i, c, reader, rng, hc, hct, hr, e⟩

theorem returnByTitle_getElem?_of_ne (t : String) (books : List Book) (i : Nat) (x : Book)
    (h : books[i]? = some x) (hx : x.title ≠ t) : (returnByTitle t books)[i]? = some x := by
  induction books generalizing i with
  | nil => simp at h
  | cons y ys ih =>
    simp only [returnByTitle]
    cases i with
    | zero =>
      have e : y = x := by simpa using h
      subst e
      simp [if_neg hx]
    | succ i =>
      have h' : ys[i]? = some x := by simpa using h
      split
      · simpa using h'
      · simpa using ih i h'

theorem returnAll_getElem?_of_not_mem (ts : List String) (books : List Book) (i : Nat)
    (x : Book) (h : books[i]? = some x) (hx : x.title ∉ ts) :
    (returnAll ts books)[i]? = some x := by
  induction ts generalizing books with
  | nil => exact h
  | cons t ts ih =>
    rw [returnAll]
    apply ih
    · exact returnByTitle_getElem?_of_ne t books i x h
        (fun e => hx (by rw [e]; exact List.mem_cons_self t ts))
    · exact fun hm => hx (List.mem_cons_of_mem t hm)

/-- A reader whose only loan is not overdue passes the return processing as is. -/
theorem survivors_singleton (day : Int) (q : Reader) (loan : Book)
    (hq : q.takenBooks = [loan]) (hd : day ≤ loan.returnDay) : survivors day [q] = [q] := by
  obtain ⟨type, name, held⟩ := q
  simp only at hq
  subst hq
  have : decide (loan.returnDay ≥ day) = true := by simpa using hd
  simp [survivors, keepLoans, List.filter_cons, this]

/-- The day with an arrival, for every state: the new reader, its single loan
and the readers after the day. -/
theorem processDay_arrival_reader (day : Int) (s : Library) (hd : (dist100 s.rng).1 ≤ 50)
    (hu : ∃ b ∈ s.libraryBooks, b.isTaken = false) :
    ∃ (i : Nat) (c : Book) (q : Reader) (loan : Book),
      s.libraryBooks[i]? = some c ∧ c.isTaken = false ∧
      (arrival day s).libraryBooks = s.libraryBooks.set i loan ∧
      (arrival day s).activeReaders = s.activeReaders ++ [q] ∧
      (processDay day s).activeReaders = survivors day s.activeReaders ++ [q] ∧
      q.takenBooks = [loan] ∧ loan.title = c.title ∧ day + 6 ≤ loan.returnDay ∧
      loan.isTaken = true := by
  obtain ⟨i, c, reader, rng, hc, hct, hr, e⟩ := arrival_eq_of_some day s hd hu
  obtain ⟨htitle, htaken, hday, htb⟩ := giveBookToReader_book reader c day rng hct
  have hq : (giveBookToReader reader c day rng).reader.takenBooks =
      [(giveBookToReader reader c day rng).book] := by rw [htb, hr]; rfl
  refine ⟨i, c, (giveBookToReader reader c day rng).reader,
    (giveBookToReader reader c day rng).book, hc, hct, by rw [e], by rw [e], ?_, hq, htitle,
    hday, htaken⟩
  rw [processDay, resolution_activeReaders, e]
  simp only [survivors_append]
  rw [survivors_singleton day _ _ hq (by omega)]

/-- C15, as stated, fails: in a state where a reader still holds an overdue loan
on "X" although the catalog book "X" is untaken, a reader arrives on day 5 and
is issued "X", and the return of the old loan on the same day marks the catalog
book "X" untaken again while the new reader holds it. -/
theorem arrival_copy_untaken :
    (dist100 [0, 0, 0, 99, 0]).1 ≤ 50 ∧
    (∃ b ∈ ([{ title := "X" }] : List Book), b.isTaken = false) ∧
    (processDay 5
        { libraryBooks := [{ title := "X" }],
          activeReaders :=
            [{ type := .OrdinaryReader, name := "old",
               takenBooks := [{ title := "X", returnDay := 0, isTaken := true }] }],
          rng := [0, 0, 0, 99, 0] }).activeReaders
      = [{ type := .OrdinaryReader, name := "Обычный_5",
           takenBooks := [{ title := "X", returnDay := 11, isTaken := true }] }] ∧
    (processDay 5
        { libraryBooks := [{ title := "X" }],
          activeReaders :=
            [{ type := .OrdinaryReader, name := "old",
               takenBooks := [{ title := "X", returnDay := 0, isTaken := true }] }],
          rng := [0, 0, 0, 99, 0] }).libraryBooks
      = [{ title := "X", returnDay := 11, isTaken := false }] := by
  decide

/-- C15, amended: for every state in which no active reader holds a loan with
the title of an untaken catalog book, every day and every state of the
generator, if the arrival draw is at most 50 and at least one catalog book is
untaken, then after `processDay` exactly one new reader stands at the end of the
active readers, behind the earlier readers that survive the return processing;
it holds exactly one loan, whose title is that of a catalog book untaken before
the call, whose `returnDay` is at least `day + 6`, and which is, with
`isTaken = true`, the catalog book at that place after the call. -/
theorem processDay_arrival (day : Int) (s : Library)
    (hfresh : ∀ b ∈ s.loans, ∀ c ∈ s.libraryBooks, c.isTaken = false → b.title ≠ c.title)
    (hd : (dist100 s.rng).1 ≤ 50) (hu : ∃ b ∈ s.libraryBooks, b.isTaken = false) :
    ∃ (i : Nat) (c : Book) (q : Reader) (loan : Book),
      s.libraryBooks[i]? = some c ∧ c.isTaken = false ∧
      (processDay day s).activeReaders =
        ((s.activeReaders.map
            (fun r => { r with
              takenBooks := r.takenBooks.filter (fun b => decide (b.returnDay ≥ day)) })).filter
          (fun r => !r.takenBooks.isEmpty)) ++ [q] ∧
      q.takenBooks = [loan] ∧ loan.title = c.title ∧ day + 6 ≤ loan.returnDay ∧
      loan.isTaken = true ∧
      (processDay day s).libraryBooks[i]? = some loan := by
  obtain ⟨i, c, q, loan, hc, hct, hbooks, hreaders, hafter, hq, htitle, hday, htaken⟩ :=
    processDay_arrival_reader day s hd hu
  refine ⟨i, c, q, loan, hc, hct, hafter, hq, htitle, hday, htaken, ?_⟩
  have hloans : (arrival day s).loans = s.loans ++ [loan] := by
    simp [Library.loans, hreaders, loansOf_append, loansOf, hq]
  rw [processDay, resolution_libraryBooks, hbooks, hloans]
  apply returnAll_getElem?_of_not_mem
  · obtain ⟨hi, _⟩ := List.getElem?_eq_some.mp hc
    exact List.getElem?_set_self hi
  · intro hm
    obtain ⟨r, hr, hrt⟩ := List.mem_map.mp hm
    obtain ⟨hr1, hr2⟩ := List.mem_filter.mp hr
    rcases List.mem_append.mp hr1 with h1 | h1
    · exact hfresh r h1 c (mem_of_getElem? _ i c hc) hct (by rw [hrt, htitle])
    · rw [List.mem_singleton.mp h1] at hr2
      have : ¬ day > loan.returnDay := by omega
      simp [overdue, this] at hr2

/-- The first day of a run with an arrival: the reader is issued the first book
of the catalog. -/
theorem processDay_arrival_witness :
    ∃ (i : Nat) (c : Book) (q : Reader) (loan : Book),
      (initLibrary [0, 0, 0, 99, 0]).libraryBooks[i]? = some c ∧ c.isTaken = false ∧
      (processDay 1 (initLibrary [0, 0, 0, 99, 0])).activeReaders =
        (((initLibrary [0, 0, 0, 99, 0]).activeReaders.map
            (fun r => { r with
              takenBooks := r.takenBooks.filter (fun b => decide (b.returnDay ≥ 1)) })).filter
          (fun r => !r.takenBooks.isEmpty)) ++ [q] ∧
      q.takenBooks = [loan] ∧ loan.title = c.title ∧ (1 : Int) + 6 ≤ loan.returnDay ∧
      loan.isTaken = true ∧
      (processDay 1 (initLibrary [0, 0, 0, 99, 0])).libraryBooks[i]? = some loan :=
  processDay_arrival 1 (initLibrary [0, 0, 0, 99, 0]) (by decide) (by decide) (by decide)

/-! ## Lost and late exclude each other along a run -/

theorem issuedBook_exclusive (reader : Reader) (book : Book) (currentDay : Int) (rng : Rng)
    (h : book.isTaken = false) (hl : book.isReturnedLate = false) :
    ¬ ((giveBookToReader reader book currentDay rng).book.isLost = true ∧
        (giveBookToReader reader book currentDay rng).book.isReturnedLate = true) := by
  rw [giveBookToReader_spec reader book currentDay rng h]
  simp only [issuedBook, issuedLate, hl]
  by_cases h1 : (dist100 rng).1 ≤ reader.loseChance <;> simp [h1]

theorem returnBookToLibrary_clean (c : Book) (h : c.Clean) : (returnBookToLibrary c).Clean := by
  obtain ⟨t, d, l, r, k⟩ := c
  cases l <;> cases r <;> simp_all [returnBookToLibrary, Book.Clean]

theorem returnByTitle_clean (t : String) (books : List Book) (h : ∀ c ∈ books, c.Clean) :
    ∀ c ∈ returnByTitle t books, c.Clean := by
  induction books with
  | nil => simp [returnByTitle]
  | cons y ys ih =>
    intro c hc
    simp only [returnByTitle] at hc
    split at hc
    · rcases List.mem_cons.mp hc with e | hm
      · rw [e]
        exact returnBookToLibrary_clean y (h y (List.mem_cons_self y ys))
      · exact h c (List.mem_cons_of_mem y hm)
    · rcases List.mem_cons.mp hc with e | hm
      · rw [e]
        exact h y (List.mem_cons_self y ys)
      · exact ih (fun x hx => h x (List.mem_cons_of_mem y hx)) c hm

theorem returnAll_clean (ts : List String) (books : List Book) (h : ∀ c ∈ books, c.Clean) :
    ∀ c ∈ returnAll ts books, c.Clean := by
  induction ts generalizing books with
  | nil => exact h
  | cons t ts ih => exact ih _ (returnByTitle_clean t books h)

theorem exclusive_initLibrary (rng : Rng) : Exclusive (initLibrary rng) where
  catalog := by
    intro c hc
    simp only [initLibrary, List.mem_cons, List.mem_singleton, List.not_mem_nil,
      or_false] at hc
    rcases hc with rfl | rfl | rfl | rfl | rfl <;> simp [Book.Clean]
  loans := by simp [initLibrary, Library.loans, loansOf]
  lost := by simp [initLibrary]
  late := by simp [initLibrary]

theorem exclusive_arrival (day : Int) (s : Library) (h : Exclusive s) :
    Exclusive (arrival day s) := by
  rcases arrival_cases day s with ⟨e, _⟩ | ⟨i, c, reader, rng, _, hc, hct, hrd, e⟩
  · rw [e]
    exact ⟨h.catalog, h.loans, h.lost, h.late⟩
  · obtain ⟨_, htaken, _, htb⟩ := giveBookToReader_book reader c day rng hct
    have hcm : c ∈ s.libraryBooks := mem_of_getElem? _ i c hc
    have hex := issuedBook_exclusive reader c day rng hct ((h.catalog c hcm).2 hct)
    have hloans : (arrival day s).loans =
        s.loans ++ [(giveBookToReader reader c day rng).book] := by
      rw [e]
      simp [Library.loans, loansOf_append, loansOf, htb, hrd]
    refine ⟨?_, ?_, ?_, ?_⟩
    · intro x hx
      rw [e] at hx
      rcases List.mem_or_eq_of_mem_set hx with h1 | h1
      · exact h.catalog x h1
      · rw [h1]
        refine ⟨hex, fun hf => ?_⟩
        rw [htaken] at hf
        exact Bool.noConfusion hf
    · intro b hb
      rw [hloans] at hb
      rcases List.mem_append.mp hb with h1 | h1
      · exact h.loans b h1
      · rw [List.mem_singleton.mp h1]
        exact hex
    · rw [arrival_lostBooks]; exact h.lost
    · rw [arrival_lateReturnedBooks]; exact h.late

theorem exclusive_resolution (day : Int) (s : Library) (h : Exclusive s) :
    Exclusive (resolution day s) := by
  refine ⟨?_, ?_, ?_, ?_⟩
  · rw [resolution_libraryBooks]
    exact returnAll_clean _ _ h.catalog
  · intro b hb
    rw [resolution_loans] at hb
    exact h.loans b (List.mem_filter.mp hb).1
  · intro b hb
    rw [resolution_lostBooks] at hb
    rcases List.mem_append.mp hb with h1 | h1
    · exact h.lost b h1
    · exact h.loans b (List.mem_filter.mp h1).1
  · intro b hb
    rw [resolution_lateReturnedBooks] at hb
    rcases List.mem_append.mp hb with h1 | h1
    · exact h.late b h1
    · exact h.loans b (List.mem_filter.mp h1).1

theorem exclusive_simulate (rng : Rng) (n : Nat) : Exclusive (simulate rng n) := by
  induction n with
  | zero => exact exclusive_initLibrary rng
  | succ n ih => exact exclusive_resolution _ _ (exclusive_arrival _ _ ih)

/-- C11: in every state reached from `initLibrary` by `processDay` on the
consecutive days 1, 2, ..., no loan held by an active reader and no entry of the
lost or of the late ledger has both `isLost` and `isReturnedLate` true. -/
theorem simulate_exclusive (rng : Rng) (n : Nat) :
    (∀ r ∈ (simulate rng n).activeReaders, ∀ b ∈ r.takenBooks,
      ¬ (b.isLost = true ∧ b.isReturnedLate = true)) ∧
    (∀ b ∈ (simulate rng n).lostBooks, ¬ (b.isLost = true ∧ b.isReturnedLate = true)) ∧
    (∀ b ∈ (simulate rng n).lateReturnedBooks,
      ¬ (b.isLost = true ∧ b.isReturnedLate = true)) := by
  have h := exclusive_simulate rng n
  refine ⟨?_, h.lost, h.late⟩
  intro r hr b hb
  exact h.loans b ((mem_loansOf b _).mpr ⟨r, hr, hb⟩)

/-- A run of eight days: the entry of the lost ledger is lost and not late. -/
theorem simulate_exclusive_witness :
    ¬ (Book.isLost { title := "Преступление и наказание", returnDay := 7, isLost := true,
                     isTaken := true } = true ∧
       Book.isReturnedLate { title := "Преступление и наказание", returnDay := 7,
                             isLost := true, isTaken := true } = true) :=
  (simulate_exclusive [0, 0, 0, 0, 0, 0, 99] 8).2.1
    { title := "Преступление и наказание", returnDay := 7, isLost := true, isTaken := true }
    (by decide)

/-! ## One loan for every reader along a run -/

theorem simulate_titles (rng : Rng) (n : Nat) :
    (simulate rng n).libraryBooks.map Book.title =
      (initLibrary rng).libraryBooks.map Book.title := by
  induction n with
  | zero => rfl
  | succ n ih => rw [simulate_succ, processDay, resolution_titles, arrival_titles, ih]

theorem simulate_libraryBooks_length (rng : Rng) (n : Nat) :
    (simulate rng n).libraryBooks.length = 5 := by
  have := congrArg List.length (simulate_titles rng n)
  simpa [initLibrary] using this

theorem single_arrival (day : Int) (s : Library)
    (h : ∀ r ∈ s.activeReaders, ∃ b, r.takenBooks = [b]) :
    ∀ r ∈ (arrival day s).activeReaders, ∃ b, r.takenBooks = [b] := by
  rcases arrival_cases day s with ⟨e, _⟩ | ⟨i, c, reader, rng, _, _, hct, hrd, e⟩
  · rw [e]; exact h
  · intro r hr
    rw [e] at hr
    rcases List.mem_append.mp hr with h1 | h1
    · exact h r h1
    · rw [List.mem_singleton.mp h1]
      refine ⟨(giveBookToReader reader c day rng).book, ?_⟩
      rw [(giveBookToReader_book reader c day rng hct).2.2.2, hrd]
      rfl

theorem single_survivors (day : Int) (rs : List Reader)
    (h : ∀ r ∈ rs, ∃ b, r.takenBooks = [b]) :
    ∀ r ∈ survivors day rs, ∃ b, r.takenBooks = [b] := by
  intro r hr
  obtain ⟨hr1, hr2⟩ := List.mem_filter.mp hr
  obtain ⟨q, hq, hqr⟩ := List.mem_map.mp hr1
  obtain ⟨b, hb⟩ := h q hq
  rw [← hqr] at hr2 ⊢
  simp only [keepLoans, hb] at hr2 ⊢
  by_cases hd : b.returnDay ≥ day
  · exact ⟨b, by simp [List.filter_cons, hd]⟩
  · simp [List.filter_cons, hd] at hr2

theorem simulate_single (rng : Rng) (n : Nat) :
    ∀ r ∈ (simulate rng n).activeReaders, ∃ b, r.takenBooks = [b] := by
  induction n with
  | zero => simp [simulate, initLibrary]
  | succ n ih =>
    rw [simulate_succ, processDay, resolution_activeReaders]
    exact single_survivors _ _ (single_arrival _ _ ih)

theorem loansOf_length_of_single (rs : List Reader)
    (h : ∀ r ∈ rs, ∃ b, r.takenBooks = [b]) : (loansOf rs).length = rs.length := by
  induction rs with
  | nil => rfl
  | cons r rs ih =>
    obtain ⟨b, hb⟩ := h r (List.mem_cons_self r rs)
    simp [loansOf, hb, ih (fun q hq => h q (List.mem_cons_of_mem r hq))]

theorem pairwise_of_nodup_loans (rs : List Reader)
    (h : ((loansOf rs).map Book.title).Nodup) :
    rs.Pairwise (fun r q => ∀ b ∈ r.takenBooks, ∀ d ∈ q.takenBooks, b.title ≠ d.title) := by
  induction rs with
  | nil => exact List.Pairwise.nil
  | cons r rs ih =>
    simp only [loansOf, List.map_append] at h
    obtain ⟨_, h2, h3⟩ := List.nodup_append.mp h
    refine List.Pairwise.cons ?_ (ih h2)
    intro q hq b hb d hd e
    exact h3 (List.mem_map.mpr ⟨b, hb, rfl⟩)
      (List.mem_map.mpr ⟨d, (mem_loansOf d rs).mpr ⟨q, hq, hd⟩, e.symm⟩)

theorem simulate_loans_length_le (rng : Rng) (n : Nat) :
    (simulate rng n).loans.length ≤ 5 := by
  have h := consistent_simulate rng n
  have hsub : (simulate rng n).loans.map Book.title ⊆
      (simulate rng n).libraryBooks.map Book.title := by
    intro t ht
    obtain ⟨b, hb, hbt⟩ := List.mem_map.mp ht
    exact List.mem_map.mpr ⟨b, (h.loan_mem b hb).1, hbt⟩
  have := (List.subperm_of_subset h.loans_nodup hsub).length_le
  simpa [simulate_libraryBooks_length] using this

/-- C19: in every state reached from `initLibrary` by `processDay` on the
consecutive days 1, 2, ..., every active reader holds exactly one loan, every
loan's title is a catalog title, no two active readers hold loans with the same
title, and there are at most five active readers. -/
theorem simulate_one_loan_each (rng : Rng) (n : Nat) :
    (∀ r ∈ (simulate rng n).activeReaders, ∃ b, r.takenBooks = [b]) ∧
    (∀ r ∈ (simulate rng n).activeReaders, ∀ b ∈ r.takenBooks,
      b.title ∈ (simulate rng n).libraryBooks.map Book.title) ∧
    (simulate rng n).activeReaders.Pairwise
      (fun r q => ∀ b ∈ r.takenBooks, ∀ d ∈ q.takenBooks, b.title ≠ d.title) ∧
    (simulate rng n).activeReaders.length ≤ 5 := by
  have h := consistent_simulate rng n
  have hs := simulate_single rng n
  refine ⟨hs, ?_, pairwise_of_nodup_loans _ h.loans_nodup, ?_⟩
  · intro r hr b hb
    exact List.mem_map.mpr
      ⟨b, (h.loan_mem b ((mem_loansOf b _).mpr ⟨r, hr, hb⟩)).1, rfl⟩
  · rw [← loansOf_length_of_single _ hs]
    exact simulate_loans_length_le rng n

/-- A run of eight days: the reader who arrived on day 2 holds one loan. -/
theorem simulate_one_loan_each_witness :
    ∃ b, Reader.takenBooks
        { type := .OrdinaryReader, name := "Обычный_2",
          takenBooks := [{ title := "Мастер и Маргарита", returnDay := 12,
                           isTaken := true }] } = [b] :=
  (simulate_one_loan_each [0, 0, 0, 0, 0, 0, 99, 99, 99, 99, 99, 99, 99, 99, 99, 99] 8).1
    { type := .OrdinaryReader, name := "Обычный_2",
      takenBooks := [{ title := "Мастер и Маргарита", returnDay := 12, isTaken := true }] }
    (by decide)

/-! ## Every catalog book is untaken, on loan or in the lost ledger -/

theorem accounted_initLibrary (rng : Rng) : Accounted (initLibrary rng) where
  ledger_nodup := by simp [initLibrary]
  taken_accounted := by
    intro c hc ht
    simp only [initLibrary, List.mem_cons, List.mem_singleton, List.not_mem_nil,
      or_false] at hc
    rcases hc with rfl | rfl | rfl | rfl | rfl <;> simp at ht

theorem accounted_arrival (day : Int) (s : Library) (h : Accounted s) :
    Accounted (arrival day s) := by
  rcases arrival_cases day s with ⟨e, _⟩ | ⟨i, c, reader, rng, _, hc, hct, hrd, e⟩
  · rw [e]
    exact ⟨h.ledger_nodup, h.taken_accounted⟩
  · obtain ⟨_, _, _, htb⟩ := giveBookToReader_book reader c day rng hct
    have hloans : (arrival day s).loans =
        s.loans ++ [(giveBookToReader reader c day rng).book] := by
      rw [e]
      simp [Library.loans, loansOf_append, loansOf, htb, hrd]
    refine ⟨by rw [arrival_lostBooks]; exact h.ledger_nodup, ?_⟩
    intro x hx hxt
    rw [hloans, arrival_lostBooks]
    rw [e] at hx
    rcases List.mem_or_eq_of_mem_set hx with h1 | h1
    · rcases h.taken_accounted x h1 hxt with h2 | h2
      · exact Or.inl (List.mem_append_left _ h2)
      · exact Or.inr h2
    · rw [h1]
      exact Or.inl (List.mem_append_right _ (List.mem_singleton_self _))

theorem accounted_resolution (day : Int) (s : Library) (hc : Consistent s) (h : Accounted s)
    (htime : ∀ b ∈ s.loans, day ≤ b.returnDay + 1) : Accounted (resolution day s) := by
  have hinjL := List.inj_on_of_nodup_map hc.titles_nodup
  have hbooks : (resolution day s).libraryBooks =
      s.libraryBooks.map (fun c =>
        if c.title ∈ (s.loans.filter (fun b => overdue day b && !b.isLost)).map Book.title
        then returnBookToLibrary c else c) := by
    rw [resolution_libraryBooks]
    exact returnAll_eq_map _ _ hc.titles_nodup
  constructor
  · rw [resolution_lostBooks, List.map_append]
    refine List.Nodup.append h.ledger_nodup ?_ ?_
    · exact hc.loans_nodup.sublist ((List.filter_sublist _).map _)
    · intro t ht1 ht2
      obtain ⟨l, hl, hlt⟩ := List.mem_map.mp ht1
      obtain ⟨b, hb, hbt⟩ := List.mem_map.mp ht2
      exact (hc.ledger l hl).2
        (List.mem_map.mpr ⟨b, (List.mem_filter.mp hb).1, by rw [hbt, hlt]⟩)
  · intro x hx hxt
    rw [hbooks] at hx
    obtain ⟨y, hy, hyx⟩ := List.mem_map.mp hx
    by_cases hyt : y.title ∈
        (s.loans.filter (fun b => overdue day b && !b.isLost)).map Book.title
    · simp only [if_pos hyt] at hyx
      rw [← hyx, returnBookToLibrary_isTaken] at hxt
      exact Bool.noConfusion hxt
    · simp only [if_neg hyt] at hyx
      subst hyx
      rw [resolution_loans, resolution_lostBooks, List.map_append]
      rcases h.taken_accounted y hy hxt with h1 | h1
      · by_cases ho : overdue day y = true
        · cases hyl : y.isLost
          · exact absurd (List.mem_map.mpr
              ⟨y, List.mem_filter.mpr ⟨h1, by simp [ho, hyl]⟩, rfl⟩) hyt
          · right
            apply List.mem_append_right
            refine List.mem_map.mpr ⟨y, List.mem_filter.mpr ⟨h1, ?_⟩, rfl⟩
            have h2 := htime y h1
            have h3 : day > y.returnDay := by simpa [overdue] using ho
            have h4 : y.returnDay + 1 = day := by omega
            simp [hyl, h4]
        · left
          exact List.mem_filter.mpr ⟨h1, by simpa using ho⟩
      · exact Or.inr (List.mem_append_left _ h1)

theorem accounted_simulate (rng : Rng) (n : Nat) : Accounted (simulate rng n) := by
  induction n with
  | zero => exact accounted_initLibrary rng
  | succ n ih =>
    rw [simulate_succ, processDay]
    refine accounted_resolution _ _ (consistent_arrival _ _ (consistent_simulate rng n))
      (accounted_arrival _ _ ih) ?_
    intro b hb
    obtain ⟨extra, hl, hx⟩ := arrival_loans ((n : Int) + 1) (simulate rng n)
    rw [hl] at hb
    rcases List.mem_append.mp hb with h1 | h1
    · have := simulate_loans_returnDay rng n b h1
      omega
    · have := hx b h1
      omega

/-- In a consistent state where every taken book is accounted for, the untaken
books, the loans and the entries of the lost ledger together are as many as the
catalog books. -/
theorem accounted_count (s : Library) (hc : Consistent s) (h : Accounted s) :
    (s.libraryBooks.filter (fun c => !c.isTaken)).length + s.loans.length +
      s.lostBooks.length = s.libraryBooks.length := by
  have hinjL := List.inj_on_of_nodup_map hc.titles_nodup
  have hA : ((s.libraryBooks.filter (fun c => !c.isTaken)).map Book.title).Nodup :=
    hc.titles_nodup.sublist ((List.filter_sublist _).map _)
  have hBC : (s.loans.map Book.title ++ s.lostBooks.map Book.title).Nodup := by
    refine List.Nodup.append hc.loans_nodup h.ledger_nodup ?_
    intro t ht1 ht2
    obtain ⟨l, hl, hlt⟩ := List.mem_map.mp ht2
    exact (hc.ledger l hl).2 (by rw [hlt]; exact ht1)
  have hall : ((s.libraryBooks.filter (fun c => !c.isTaken)).map Book.title ++
      (s.loans.map Book.title ++ s.lostBooks.map Book.title)).Nodup := by
    refine List.Nodup.append hA hBC ?_
    intro t ht1 ht2
    obtain ⟨c, hcm, hct⟩ := List.mem_map.mp ht1
    obtain ⟨hc1, hc2⟩ := List.mem_filter.mp hcm
    have hcu : c.isTaken = false := by simpa using hc2
    rcases List.mem_append.mp ht2 with h1 | h1
    · obtain ⟨b, hb, hbt⟩ := List.mem_map.mp h1
      have e : b = c := hinjL (hc.loan_mem b hb).1 hc1 (by rw [hbt, hct])
      have := (hc.loan_mem b hb).2
      rw [e, hcu] at this
      exact Bool.noConfusion this
    · obtain ⟨l, hl, hlt⟩ := List.mem_map.mp h1
      obtain ⟨⟨c0, hc0, hc0t, hc0l⟩, _⟩ := hc.ledger l hl
      have e : c0 = c := hinjL hc0 hc1 (by rw [hc0t, hlt, hct])
      have := hc.lost_taken c0 hc0 hc0l
      rw [e, hcu] at this
      exact Bool.noConfusion this
  have hperm : ((s.libraryBooks.filter (fun c => !c.isTaken)).map Book.title ++
      (s.loans.map Book.title ++ s.lostBooks.map Book.title)).Perm
      (s.libraryBooks.map Book.title) := by
    refine (List.perm_ext_iff_of_nodup hall hc.titles_nodup).mpr ?_
    intro t
    constructor
    · intro ht
      rcases List.mem_append.mp ht with h1 | h1
      · obtain ⟨c, hcm, hct⟩ := List.mem_map.mp h1
        exact List.mem_map.mpr ⟨c, (List.mem_filter.mp hcm).1, hct⟩
      · rcases List.mem_append.mp h1 with h2 | h2
        · obtain ⟨b, hb, hbt⟩ := List.mem_map.mp h2
          exact List.mem_map.mpr ⟨b, (hc.loan_mem b hb).1, hbt⟩
        · obtain ⟨l, hl, hlt⟩ := List.mem_map.mp h2
          obtain ⟨⟨c0, hc0, hc0t, _⟩, _⟩ := hc.ledger l hl
          exact List.mem_map.mpr ⟨c0, hc0, by rw [hc0t, hlt]⟩
    · intro ht
      obtain ⟨c, hcm, hct⟩ := List.mem_map.mp ht
      cases hk : c.isTaken
      · exact List.mem_append_left _
          (List.mem_map.mpr ⟨c, List.mem_filter.mpr ⟨hcm, by simp [hk]⟩, hct⟩)
      · apply List.mem_append_right
        rcases h.taken_accounted c hcm hk with h1 | h1
        · exact List.mem_append_left _ (List.mem_map.mpr ⟨c, h1, hct⟩)
        · exact List.mem_append_right _ (by rw [← hct]; exact h1)
  have := hperm.length_eq
  simp only [List.length_append, List.length_map] at this
  omega

/-- C18: in every state reached from `initLibrary` by `processDay` on the
consecutive days 1, 2, ..., the number of catalog books with `isTaken = false`
plus the number of loans held by the active readers plus the length of the lost
ledger is 5. -/
theorem simulate_books_accounted (rng : Rng) (n : Nat) :
    ((simulate rng n).libraryBooks.filter (fun c => !c.isTaken)).length +
      (simulate rng n).loans.length + (simulate rng n).lostBooks.length = 5 := by
  rw [accounted_count _ (consistent_simulate rng n) (accounted_simulate rng n)]
  exact simulate_libraryBooks_length rng n

/-! ## The states of a run meet the condition of the arrival theorem -/

/-- In a consistent state, hence in every state of a run, no loan carries the
title of an untaken catalog book. -/
theorem consistent_fresh (s : Library) (h : Consistent s) :
    ∀ b ∈ s.loans, ∀ c ∈ s.libraryBooks, c.isTaken = false → b.title ≠ c.title := by
  intro b hb c hc hct e
  have hbc : b = c :=
    List.inj_on_of_nodup_map h.titles_nodup (h.loan_mem b hb).1 hc e
  have := (h.loan_mem b hb).2
  rw [hbc, hct] at this
  exact Bool.noConfusion this

theorem simulate_fresh (rng : Rng) (n : Nat) :
    ∀ b ∈ (simulate rng n).loans, ∀ c ∈ (simulate rng n).libraryBooks,
      c.isTaken = false → b.title ≠ c.title :=
  consistent_fresh _ (consistent_simulate rng n)

end LibrarySim
